import Mathlib

/-!
Verification development for the dbx-ignore repository: a shallow embedding of
the watch/reconciliation core (src/core/watch.rs), the pattern matcher
(src/utils/pattern_matcher.rs), the git utilities (src/utils/git_utils.rs),
the persisted state (src/core/tracked_files.rs, src/core/daemon.rs) and the
atomic JSON writer (src/utils/json_utils.rs), together with theorems settling
the frozen claims about the natural-language specification.

Modelling conventions:
* Paths are repository-root-relative and componentized: `Path := List String`.
* The filesystem is a finite snapshot: a list of regular files and a list of
  directories (component paths).
* The per-OS attribute store ("markers") is a list of currently marked paths;
  `has` is membership, `add` conses (if absent), `remove` filters out.  A
  per-path failure predicate `fl` models `AttributeStoreFailure`: when
  `fl p = true`, the add/remove call on `p` returns an error and leaves the
  marker state unchanged, exactly as a failed xattr syscall would.
-/

namespace DbxIgnore

/-- A repository-root-relative path, as a list of components. -/
abbrev Path := List String

/-- A snapshot of the repository working tree: regular files and directories,
both as root-relative component paths. -/
structure FS where
  files : List Path
  dirs : List Path
deriving Repr

/-! ## Glob component matching

The `glob` crate and the `ignore` crate agree on single-component glob
syntax: `*` matches any run of characters within one component, `?` matches
one character, other characters match literally.  Modelled from the spec
(§4.1 "glob/gitignore-style patterns"): the crates' matchers are external
dependencies not present under src/, so their common single-component
fragment (no character classes, no `**`) is embedded here.  The function is
written with explicit fuel so that it is structurally recursive and the
kernel can evaluate it on concrete inputs. -/

/-- Fuel-indexed single-component glob matcher. -/
def globMatchF : Nat → List Char → List Char → Bool
  | 0, _, _ => false
  | _ + 1, [], s => s.isEmpty
  | n + 1, '*' :: ps, [] => globMatchF n ps []
  | n + 1, '*' :: ps, c :: cs => globMatchF n ps (c :: cs) || globMatchF n ('*' :: ps) cs
  | n + 1, '?' :: ps, _ :: cs => globMatchF n ps cs
  | n + 1, p :: ps, c :: cs => p == c && globMatchF n ps cs
  | _ + 1, _ :: _, [] => false

/-- Single-component glob match: does the glob `pat` match the component `s`? -/
def compMatch (pat : List Char) (s : String) : Bool :=
  globMatchF (pat.length + s.toList.length + 1) pat s.toList

/-- Split a character list on `/` separators. -/
def splitOnSlash (cs : List Char) : List (List Char) :=
  match cs with
  | [] => [[]]
  | c :: rest =>
    let tail := splitOnSlash rest
    if c = '/' then [] :: tail
    else match tail with
      | [] => [[c]]
      | t :: ts => (c :: t) :: ts

/-! ## Gitignore pattern semantics

Modelled from the spec (§4.1): the `ignore` crate used by
`PatternMatcher` (src/utils/pattern_matcher.rs) is an external dependency, so
its documented semantics are embedded: later patterns override earlier ones,
`!pattern` negates, a trailing `/` restricts to directories, a leading or
inner `/` anchors the pattern to the base path, and an unanchored pattern
matches against the final path component at any depth. -/

/-- A parsed gitignore-style pattern. -/
structure GitPat where
  neg : Bool
  dirOnly : Bool
  anchored : Bool
  comps : List (List Char)
deriving Repr

/-- Parse one gitignore pattern line: a leading `!` marks negation, a
trailing `/` marks directory-only, a leading `/` or an inner `/` anchors the
pattern to the base path. -/
def parseGitPattern (s : String) : GitPat :=
  let cs0 := s.toList
  let neg := cs0.head? == some '!'
  let cs1 := if neg then cs0.tail else cs0
  let dirOnly := cs1.getLast? == some '/'
  let cs2 := if dirOnly then cs1.dropLast else cs1
  let lead := cs2.head? == some '/'
  let cs3 := if lead then cs2.tail else cs2
  { neg := neg, dirOnly := dirOnly, anchored := lead || cs3.contains '/',
    comps := splitOnSlash cs3 }

/-- Does a parsed pattern match the given root-relative path? -/
def gitPatMatch (gp : GitPat) (p : Path) (isDir : Bool) : Bool :=
  (!gp.dirOnly || isDir) &&
    (if gp.anchored then
      gp.comps.length == p.length &&
        (List.zip gp.comps p).all (fun pr => compMatch pr.1 pr.2)
    else
      match gp.comps, p.getLast? with
      | [c], some n => compMatch c n
      | _, _ => false)

/-- Gitignore precedence: the last matching pattern decides; `!` un-ignores.
This is `Gitignore::matched(path, is_dir).is_ignore()` for a single pattern
list, as used by `PatternMatcher::is_ignored`. -/
def gitignoreMatched (patterns : List String) (p : Path) (isDir : Bool) : Bool :=
  patterns.foldl
    (fun acc s =>
      let gp := parseGitPattern s
      if gitPatMatch gp p isDir then !gp.neg else acc)
    false

/-- `PatternMatcher::find_matching_files` (src/utils/pattern_matcher.rs:50-77):
walk every entry under the root with all standard filters disabled and return
exactly the regular files for which `is_ignored` holds.  `is_ignored` checks
the path itself against the compiled pattern list (no ancestor pruning). -/
def find_matching_files (patterns : List String) (fs : FS) : List Path :=
  fs.files.filter (fun f => gitignoreMatched patterns f false)

/-! ## Glob-crate path matching (Patterns mode)

`perform_pattern_scan` (src/core/watch.rs:366-398) joins each stored pattern
to the repository root and expands it with the `glob` crate, where `*` and
`?` never match a path separator; a pattern therefore matches exactly the
entries whose component count equals the pattern's component count and whose
components match pairwise.  Paths here are root-relative, so the
`repo_root.join(pattern)` prefix is already stripped; the absolute
(leading-`/`) pattern branch addresses paths outside the repository and is
outside this root-relative model. -/

/-- `glob::Pattern` matching of a slash-split pattern against a full
root-relative path. -/
def globPathMatch (pattern : String) (p : Path) : Bool :=
  let comps := splitOnSlash pattern.toList
  comps.length == p.length &&
    (List.zip comps p).all (fun pr => compMatch pr.1 pr.2)

/-- The set `files_to_mark` built by `perform_pattern_scan`
(src/core/watch.rs:374-398): every existing entry (file or directory)
matched by the glob expansion of some stored pattern. -/
def files_to_mark (patterns : List String) (fs : FS) : List Path :=
  (fs.files ++ fs.dirs).filter (fun p => patterns.any (fun pat => globPathMatch pat p))

/-! ## git_utils (src/utils/git_utils.rs)

`get_git_ignored_files_in_path` builds two `ignore::WalkBuilder` walkers over
the working tree: one with all gitignore filtering disabled (every file) and
one with gitignore filtering enabled (files surviving the ignore rules), and
returns the difference.  The filtering walker prunes a directory as soon as
the rules ignore it, so a file is filtered out exactly when the rules match
the file itself or one of its ancestor directories.  The rule set is
modelled as a single root-level `.gitignore` pattern list (the nested-file
union is performed by the crate and is outside the claims below). -/

/-- Does the path contain a `.git` component? Both walker loops skip such
paths (src/utils/git_utils.rs:42,52). -/
def hasGitComp (p : Path) : Bool :=
  p.any (fun c => c == ".git")

/-- All strict prefixes of a path (the ancestor directories, innermost last),
excluding the empty root prefix. -/
def ancestorDirs (p : Path) : List Path :=
  ((List.range p.length).map (fun k => p.take k)).filter (fun d => !d.isEmpty)

/-- A file is excluded by the gitignore-respecting walker iff the rules match
it directly or match one of its ancestor directories (directory pruning). -/
def walkerIgnored (patterns : List String) (f : Path) : Bool :=
  gitignoreMatched patterns f false ||
    (ancestorDirs f).any (fun d => gitignoreMatched patterns d true)

/-- `get_git_ignored_files_in_path` (src/utils/git_utils.rs:13-66): all files
(excluding `.git`) minus the files the gitignore-respecting walker still
visits.  The source sorts the result; order is irrelevant to every claim, so
the walk order of `fs.files` is kept. -/
def get_git_ignored_files_in_path (patterns : List String) (fs : FS) : List Path :=
  let all_files := fs.files.filter (fun f => !hasGitComp f)
  let non_ignored := fs.files.filter (fun f => !hasGitComp f && !walkerIgnored patterns f)
  all_files.filter (fun f => decide (f ∉ non_ignored))

/-- Modelled from the spec: "files reported as ignored-and-untracked by the
VCS" (§4.2, §6 `listIgnoredUntracked`), i.e. `git ls-files --ignored
--exclude-standard -o`.  A file is listed iff the ignore rules exclude it AND
it is not in the VCS index (`tracked`).  The VCS binary is an external
collaborator not present under src/, so it is embedded from the spec's words. -/
def vcsIgnoredUntracked (patterns : List String) (fs : FS) (tracked : List Path) : List Path :=
  fs.files.filter
    (fun f => !hasGitComp f && walkerIgnored patterns f && decide (f ∉ tracked))

/-! ## Persisted state (src/core/tracked_files.rs, src/core/daemon.rs) -/

/-- The raw content of `TrackedFiles` as persisted
(src/core/tracked_files.rs:9-18): marked paths and patterns as strings, plus
a timestamp. -/
structure TrackedFilesData where
  marked_files : List String
  patterns : List String
  last_updated : Nat
deriving Repr, DecidableEq

instance : Inhabited TrackedFilesData := ⟨⟨[], [], 0⟩⟩

/-- `TrackedFiles::default()`: empty sets, zero timestamp. -/
def TrackedFilesData.default : TrackedFilesData := ⟨[], [], 0⟩

/-- Possible states of the on-disk state file as seen by
`TrackedFiles::load`: absent, unreadable (I/O error), invalid (bad JSON or
schema mismatch), or a successfully parsed value. -/
inductive StateFileContent where
  | missing
  | unreadable
  | invalid
  | valid (d : TrackedFilesData)
deriving Repr, DecidableEq

/-- `TrackedFiles::load` (src/core/tracked_files.rs:22-42): a missing file
yields the default; a read or parse failure yields the default; a parsed
value is cleaned by dropping empty-string paths
(`p.as_os_str().len() > 0`) and empty patterns.  Every branch returns `Ok`. -/
def TrackedFiles.load (c : StateFileContent) : Except String TrackedFilesData :=
  match c with
  | .missing => .ok TrackedFilesData.default
  | .unreadable => .ok TrackedFilesData.default
  | .invalid => .ok TrackedFilesData.default
  | .valid d =>
    .ok { d with
          marked_files := d.marked_files.filter (fun p => p.length > 0),
          patterns := d.patterns.filter (fun p => !p.isEmpty) }

/-- The three watch modes (src/core/watch.rs:15-20). -/
inductive WatchMode where
  | TrackedFiles
  | GitIgnore
  | Patterns (patterns : List String)
deriving Repr, DecidableEq

/-- Mode selection at daemon startup (src/core/watch.rs:48-54). -/
def deriveWatchMode (tracked : TrackedFilesData) : WatchMode :=
  if !tracked.patterns.isEmpty then
    .Patterns tracked.patterns
  else if tracked.marked_files.isEmpty then
    .GitIgnore
  else
    .TrackedFiles

/-- The `DaemonStatus` record (src/core/daemon.rs:8-13). -/
structure DaemonStatus where
  pid : Nat
  repo_path : String
  started_at : Nat
deriving Repr, DecidableEq

/-- The daemon status file on disk: absent, corrupted (unparseable), or a
stored record. -/
inductive StatusFile where
  | absent
  | corrupted
  | record (s : DaemonStatus)
deriving Repr, DecidableEq

/-- `DaemonStatus::read` (src/core/daemon.rs:20-50), with process liveness
(`is_process_running`) supplied as an oracle `alive`.  Returns the read
result together with the state of the status file afterwards: corrupted
files, pid-0 records and records of dead processes are deleted and reported
as absent. -/
def DaemonStatus.read (alive : Nat → Bool) (f : StatusFile) :
    Option DaemonStatus × StatusFile :=
  match f with
  | .absent => (none, .absent)
  | .corrupted => (none, .absent)
  | .record s =>
    if s.pid = 0 then (none, .absent)
    else if alive s.pid then (some s, .record s)
    else (none, .absent)

/-! ## Attribute store (external interface, §6)

Markers are modelled as the list of currently marked paths.  A per-path
failure oracle `fl` injects `AttributeStoreFailure`: when `fl p = true` the
add/remove call on `p` fails and leaves the markers unchanged. -/

/-- `platform_utils::has_any_ignore_attribute`. -/
def hasMark (M : List Path) (p : Path) : Bool := decide (p ∈ M)

/-- `platform_utils::add_all_ignore_attributes` (successful case). -/
def addMark (M : List Path) (p : Path) : List Path := if p ∈ M then M else p :: M

/-- `platform_utils::remove_all_ignore_attributes` (successful case). -/
def rmMark (M : List Path) (p : Path) : List Path := M.filter (fun x => x ≠ p)

/-- Running state of one reconciliation pass over the marker store: the
marker list, the `added`/`removed`/`errors` counters, and the number of
per-path success lines (`pa` for adds, `pr` for removals) and error lines
(`pe`) printed so far. -/
structure ScanSt where
  markers : List Path
  added : Nat
  removed : Nat
  errors : Nat
  pa : Nat
  pr : Nat
  pe : Nat
deriving Repr, DecidableEq

/-- Initial state of a pass: existing markers, all counters zero. -/
def ScanSt.init (M : List Path) : ScanSt := ⟨M, 0, 0, 0, 0, 0, 0⟩

/-- One step of the marking loop (src/core/watch.rs:261-279 and 401-418):
if the path lacks a marker, try to add one; a success prints a line while
`added <= 10`, a failure prints while `errors <= 5`. -/
def markStep (fl : Path → Bool) (st : ScanSt) (p : Path) : ScanSt :=
  if hasMark st.markers p then st
  else if fl p then
    { st with errors := st.errors + 1,
              pe := if st.errors + 1 ≤ 5 then st.pe + 1 else st.pe }
  else
    { st with markers := addMark st.markers p,
              added := st.added + 1,
              pa := if st.added + 1 ≤ 10 then st.pa + 1 else st.pa }

/-- One step of the sweeping loop (src/core/watch.rs:287-305 and 423-456):
a marked path not in the wanted set (`inSet`) loses its marker, unless the
`spare` predicate (the pattern-scan's `matches_pattern` re-check; constantly
false in GitIgnore mode) rescues it.  A success prints while
`removed <= 10`, a failure prints while `errors <= 5`. -/
def sweepStep (fl : Path → Bool) (inSet spare : Path → Bool) (st : ScanSt) (m : Path) : ScanSt :=
  if !inSet m && hasMark st.markers m then
    if spare m then st
    else if fl m then
      { st with errors := st.errors + 1,
                pe := if st.errors + 1 ≤ 5 then st.pe + 1 else st.pe }
    else
      { st with markers := rmMark st.markers m,
                removed := st.removed + 1,
                pr := if st.removed + 1 ≤ 10 then st.pr + 1 else st.pr }
  else st

/-- `find_marked_files` (src/core/watch.rs:332-364): walk the tree skipping
directories named `.git`, collecting every file and every directory that
carries a marker.  A file is visited iff no ancestor directory component is
`.git`; a directory additionally must not itself be named `.git`. -/
def find_marked_files (fs : FS) (M : List Path) : List Path :=
  fs.files.filter (fun f => !f.dropLast.any (fun c => c == ".git") && hasMark M f) ++
    fs.dirs.filter (fun d => !hasGitComp d && hasMark M d)

/-- `perform_gitignore_scan` (src/core/watch.rs:252-330): mark every
git-ignored file lacking a marker, then sweep markers off every marked path
that is no longer git-ignored. -/
def perform_gitignore_scan (patterns : List String) (fs : FS) (M : List Path)
    (fl : Path → Bool) : ScanSt :=
  let git_ignored := get_git_ignored_files_in_path patterns fs
  let st1 := git_ignored.foldl (markStep fl) (ScanSt.init M)
  let marked := find_marked_files fs st1.markers
  marked.foldl (sweepStep fl (fun m => decide (m ∈ git_ignored)) (fun _ => false)) st1

/-- `perform_pattern_scan` (src/core/watch.rs:366-481): mark every entry
matching a glob pattern, then sweep markers off marked paths that neither
belong to `files_to_mark` nor re-match any pattern. -/
def perform_pattern_scan (patterns : List String) (fs : FS) (M : List Path)
    (fl : Path → Bool) : ScanSt :=
  let ftm := files_to_mark patterns fs
  let st1 := ftm.foldl (markStep fl) (ScanSt.init M)
  let marked := find_marked_files fs st1.markers
  marked.foldl
    (sweepStep fl (fun m => decide (m ∈ ftm))
      (fun m => patterns.any (fun pat => globPathMatch pat m))) st1

/-- Does the path exist in the snapshot (`PathBuf::exists`)? -/
def existsFs (fs : FS) (p : Path) : Bool :=
  decide (p ∈ fs.files) || decide (p ∈ fs.dirs)

/-- Running state of a TrackedFiles-mode pass: the surviving tracked list,
the markers, the `updated`/`removed`/`errors` counters and the printed
success (`ps`) and error (`pe`) line counts — the source prints every
per-path line in this mode. -/
structure TrackedScanSt where
  tracked : List Path
  markers : List Path
  updated : Nat
  removed : Nat
  errors : Nat
  ps : Nat
  pe : Nat
deriving Repr, DecidableEq

/-- One step of `perform_tracked_files_scan`'s loop
(src/core/watch.rs:196-232): a vanished path is dropped from tracking; an
existing one has its marker reconciled with its git-ignored status. -/
def trackedStep (fs : FS) (ignoredSet : List Path) (fl : Path → Bool)
    (st : TrackedScanSt) (p : Path) : TrackedScanSt :=
  if !existsFs fs p then
    { st with tracked := st.tracked.filter (fun q => q ≠ p), removed := st.removed + 1 }
  else
    let shouldBe := decide (p ∈ ignoredSet)
    let has := hasMark st.markers p
    if shouldBe && !has then
      if fl p then { st with errors := st.errors + 1, pe := st.pe + 1 }
      else { st with markers := addMark st.markers p, updated := st.updated + 1,
                     ps := st.ps + 1 }
    else if !shouldBe && has then
      if fl p then { st with errors := st.errors + 1, pe := st.pe + 1 }
      else { st with markers := rmMark st.markers p, updated := st.updated + 1,
                     ps := st.ps + 1 }
    else st

/-- `perform_tracked_files_scan` (src/core/watch.rs:178-250): iterate over a
clone of the tracked set, reconciling each entry; the final save/load
round-trip of the surviving list is the `tracked` field of the result.  An
empty tracked list short-circuits with zero counters, which coincides with
the fold over the empty list. -/
def perform_tracked_files_scan (patterns : List String) (fs : FS)
    (tracked : List Path) (M : List Path) (fl : Path → Bool) : TrackedScanSt :=
  let git_ignored := get_git_ignored_files_in_path patterns fs
  tracked.foldl (trackedStep fs git_ignored fl) ⟨tracked, M, 0, 0, 0, 0, 0⟩

/-- The overflow line printed for adds beyond the sample cap
(src/core/watch.rs:307-309): `... and {added - 10} more files`. -/
def overflowAdded (st : ScanSt) : Nat := if st.added > 10 then st.added - 10 else 0

/-- The overflow line printed for removals beyond the sample cap
(src/core/watch.rs:310-312). -/
def overflowRemoved (st : ScanSt) : Nat := if st.removed > 10 then st.removed - 10 else 0

/-- The overflow line printed for errors beyond the sample cap
(src/core/watch.rs:313-315). -/
def overflowErrors (st : ScanSt) : Nat := if st.errors > 5 then st.errors - 5 else 0

/-! ## Watch loop and debouncing (src/core/watch.rs:113-168) -/

/-- Filesystem event kinds delivered by the notify watcher. -/
inductive EventKind where
  | create
  | modify
  | remove
  | other
deriving Repr, DecidableEq

/-- A filesystem event: a kind plus the affected paths. -/
structure Event where
  kind : EventKind
  paths : List Path
deriving Repr, DecidableEq

/-- `should_trigger_rescan` (src/core/watch.rs:146-168): in Patterns mode,
any create/remove event is relevant; in the other modes, a
create/modify/remove event is relevant iff some affected path is a
`.gitignore` file or lies inside `.git`. -/
def should_trigger_rescan (ev : Event) (mode : WatchMode) : Bool :=
  match ev.kind with
  | .create | .modify | .remove =>
    match mode with
    | .Patterns _ =>
      match ev.kind with
      | .create | .remove => true
      | _ => false
    | _ =>
      ev.paths.any (fun p =>
        (p.getLast? == some ".gitignore") || p.any (fun c => c == ".git"))
  | .other => false

/-- One item consumed by the event loop's `select!`: a queued filesystem
event or a tick of the fixed-period debounce timer. -/
inductive LoopInput where
  | fsev (e : Event)
  | tick
deriving Repr, DecidableEq

/-- `HashSet::insert` on the pending-event set (src/core/watch.rs:121). -/
def insertPending (pend : List Path) (p : Path) : List Path :=
  if p ∈ pend then pend else p :: pend

/-- One iteration of the event loop (src/core/watch.rs:116-141): a relevant
event inserts its first path into the pending set; a timer tick with a
non-empty pending set runs one reconciliation pass (counted) and clears the
set.  `tokio::time::interval` ticks on a fixed period regardless of events. -/
def loopStep (mode : WatchMode) (pend : List Path) : LoopInput → List Path × Nat
  | .fsev e =>
    (if should_trigger_rescan e mode then insertPending pend (e.paths.headD []) else pend, 0)
  | .tick => if pend.isEmpty then (pend, 0) else ([], 1)

/-- Total number of reconciliation passes triggered while consuming the
given loop inputs in order. -/
def scanCount (mode : WatchMode) : List LoopInput → List Path → Nat
  | [], _ => 0
  | i :: rest, pend =>
    let s := loopStep mode pend i
    s.2 + scanCount mode rest s.1

/-- The pending set after consuming a list of filesystem events (no ticks). -/
def pendAfter (mode : WatchMode) (evs : List Event) (pend : List Path) : List Path :=
  evs.foldl
    (fun s e => if should_trigger_rescan e mode then insertPending s (e.paths.headD []) else s)
    pend

/-- Times at which reconciliation passes run, for a timed input trace. -/
def scanTimes (mode : WatchMode) : List (Nat × LoopInput) → List Path → List Nat
  | [], _ => []
  | (t, i) :: rest, pend =>
    let s := loopStep mode pend i
    (if s.2 > 0 then [t] else []) ++ scanTimes mode rest s.1

/-- Arrival times of relevant filesystem events in a timed trace. -/
def relevantEventTimes (mode : WatchMode) (tr : List (Nat × LoopInput)) : List Nat :=
  tr.filterMap (fun ti =>
    match ti.2 with
    | .fsev e => if should_trigger_rescan e mode then some ti.1 else none
    | .tick => none)

/-- The debounce behaviour the claim ascribes to the loop: every
reconciliation pass happens only after a full 500 ms window has elapsed with
no further relevant event, i.e. every relevant event strictly before a scan
lies at least 500 ms before it. -/
def debounceRestarts (mode : WatchMode) (tr : List (Nat × LoopInput)) : Prop :=
  ∀ t ∈ scanTimes mode tr [], ∀ te ∈ relevantEventTimes mode tr, te < t → te + 500 ≤ t

/-! ## Atomic JSON writing (src/utils/json_utils.rs:12-50) -/

/-- Which steps of `write_json_atomic` fail, modelling I/O errors injected
at each fallible call. -/
structure WriteFailSpec where
  create_dir : Bool
  temp_create : Bool
  write : Bool
  flush : Bool
  sync : Bool
  persist : Bool
deriving Repr, DecidableEq

/-- The slice of the filesystem `write_json_atomic` touches: the target
file's contents and the temporary file's contents (`none` = absent). -/
structure JsonFsState where
  target : Option String
  temp : Option String
deriving Repr, DecidableEq

/-- `write_json_atomic` (src/utils/json_utils.rs:12-50): create the parent
directory, create a temp file in it, serialize (`ser = none` models a
serialization failure; the parse-back validation of freshly serialized JSON
cannot fail), write/flush/sync the temp file, then rename it over the
target.  Every failure returns early with `Err`; the `NamedTempFile` is
dropped (deleted) on early return.  Only the final rename touches the
target. -/
def write_json_atomic (flg : WriteFailSpec) (ser : Option String)
    (st : JsonFsState) : Except String Unit × JsonFsState :=
  if flg.create_dir then (.error "Failed to create parent directory", st)
  else if flg.temp_create then (.error "Failed to create temporary file", st)
  else
    match ser with
    | none => (.error "Failed to serialize to JSON", { st with temp := none })
    | some json =>
      if flg.write then (.error "Failed to write to temporary file", { st with temp := none })
      else if flg.flush then (.error "Failed to flush temporary file", { st with temp := none })
      else if flg.sync then (.error "Failed to sync temporary file", { st with temp := none })
      else if flg.persist then (.error "Failed to persist file atomically", { st with temp := none })
      else (.ok (), { target := some json, temp := none })

/-- The marker list after the marking loop: the original markers plus every
desired path that was absent and whose add call succeeded. -/
def markedAfterAdds (fl : Path → Bool) (M : List Path) (desired : List Path) : List Path :=
  M ++ desired.filter (fun p => !hasMark M p && !fl p)

/-! ## Concrete inputs used by counterexamples and witnesses -/

/-- A tree with a top-level and a nested `.log` file. -/
def fsLog : FS := ⟨[["test.log"], ["src", "test.log"]], [["src"]]⟩

/-- A tree with one ignored and one non-ignored file. -/
def fsTracked : FS := ⟨[["a.log"], ["b.txt"]], []⟩

/-- A flat tree with eleven files. -/
def fsEleven : FS :=
  ⟨[["f01"], ["f02"], ["f03"], ["f04"], ["f05"], ["f06"], ["f07"], ["f08"],
    ["f09"], ["f10"], ["f11"]], []⟩

/-- A modify event on the root `.gitignore`. -/
def gitignoreEvent : Event := ⟨.modify, [[".gitignore"]]⟩

/-- A timed trace: the interval's immediate first tick, a relevant event at
499 ms, and the next fixed-period tick at 500 ms. -/
def burstTrace : List (Nat × LoopInput) :=
  [(0, .tick), (499, .fsev gitignoreEvent), (500, .tick)]

/-! ## Theorems -/

/-- C5: watch-mode derivation from the loaded specification is exactly:
non-empty patterns yields Patterns regardless of marked paths; empty
patterns and non-empty marked paths yields TrackedFiles; both empty yields
GitIgnore — for every possible specification content. -/
theorem C5_mode_derivation (t : TrackedFilesData) :
    (t.patterns ≠ [] → deriveWatchMode t = .Patterns t.patterns) ∧
    (t.patterns = [] → t.marked_files ≠ [] → deriveWatchMode t = .TrackedFiles) ∧
    (t.patterns = [] → t.marked_files = [] → deriveWatchMode t = .GitIgnore) := by
  refine ⟨fun h => ?_, fun h1 h2 => ?_, fun h1 h2 => ?_⟩ <;>
    simp [deriveWatchMode, List.isEmpty_iff, *]

/-- Witness for C5 at concrete specifications. -/
theorem C5_mode_derivation_witness :
    deriveWatchMode ⟨["f"], ["*.log"], 0⟩ = .Patterns ["*.log"] ∧
    deriveWatchMode ⟨["f"], [], 0⟩ = .TrackedFiles ∧
    deriveWatchMode ⟨[], [], 0⟩ = .GitIgnore :=
  ⟨(C5_mode_derivation _).1 (by decide),
   (C5_mode_derivation _).2.1 rfl (by decide),
   (C5_mode_derivation _).2.2 rfl rfl⟩

/-- C6: loading the ignore specification never fails the caller: missing,
unreadable or invalid content loads as the empty default specification, and
every empty-string path and pattern is filtered out of a parsed value. -/
theorem C6_load_tolerant :
    (∀ c, ∃ t, TrackedFiles.load c = .ok t ∧
      (∀ s ∈ t.marked_files, s ≠ "") ∧ (∀ s ∈ t.patterns, s ≠ "")) ∧
    TrackedFiles.load .missing = .ok .default ∧
    TrackedFiles.load .unreadable = .ok .default ∧
    TrackedFiles.load .invalid = .ok .default := by
  refine ⟨fun c => ?_, rfl, rfl, rfl⟩
  cases c with
  | missing => exact ⟨_, rfl, by simp [TrackedFilesData.default], by simp [TrackedFilesData.default]⟩
  | unreadable => exact ⟨_, rfl, by simp [TrackedFilesData.default], by simp [TrackedFilesData.default]⟩
  | invalid => exact ⟨_, rfl, by simp [TrackedFilesData.default], by simp [TrackedFilesData.default]⟩
  | valid d =>
    refine ⟨_, rfl, fun s hs => ?_, fun s hs => ?_⟩
    · simp only [List.mem_filter] at hs
      intro hempty
      rw [hempty] at hs
      exact absurd hs.2 (by decide)
    · simp only [List.mem_filter] at hs
      intro hempty
      rw [hempty] at hs
      exact absurd hs.2 (by decide)

/-- C8: reading the daemon-session record treats staleness as absence with
purge: corrupted content, pid 0, or a dead process yields deletion of the
file and `none`; `some` is returned only when the recorded pid is alive. -/
theorem C8_stale_session (alive : Nat → Bool) (f : StatusFile) :
    (∀ s, (DaemonStatus.read alive f).1 = some s →
      alive s.pid = true ∧ (DaemonStatus.read alive f).2 = .record s) ∧
    (∀ s, f = .record s → s.pid = 0 ∨ alive s.pid = false →
      DaemonStatus.read alive f = (none, .absent)) ∧
    (f = .corrupted → DaemonStatus.read alive f = (none, .absent)) := by
  cases f with
  | absent => simp [DaemonStatus.read]
  | corrupted => simp [DaemonStatus.read]
  | record s =>
    by_cases h0 : s.pid = 0
    · simp [DaemonStatus.read, h0]
    · by_cases ha : alive s.pid
      · refine ⟨fun s' hs' => ?_, fun s' hs' hd => ?_, by simp⟩
        · simp [DaemonStatus.read, h0, ha] at hs'
          subst hs'
          simp [DaemonStatus.read, h0, ha]
        · cases hs'
          rcases hd with hd | hd
          · exact absurd hd h0
          · rw [ha] at hd
            cases hd
      · simp [DaemonStatus.read, h0, ha]

/-- Witness for C8: a record of a dead process reads as `none` and the file
is purged. -/
theorem C8_stale_session_witness :
    DaemonStatus.read (fun _ => false) (.record ⟨7, "r", 3⟩) = (none, .absent) :=
  (C8_stale_session (fun _ => false) (.record ⟨7, "r", 3⟩)).2.1 ⟨7, "r", 3⟩ rfl (Or.inr rfl)

/-- C10: `write_json_atomic` is atomic on failure: whenever any step fails
the target file's previous contents are unchanged, and on success the target
holds exactly the serialized JSON. -/
theorem C10_write_atomic (flg : WriteFailSpec) (ser : Option String) (st : JsonFsState) :
    ((write_json_atomic flg ser st).1.isOk = false →
      (write_json_atomic flg ser st).2.target = st.target) ∧
    ((write_json_atomic flg ser st).1.isOk = true →
      ∃ j, ser = some j ∧ (write_json_atomic flg ser st).2.target = some j) := by
  obtain ⟨cd, tc, w, fh, sy, ps⟩ := flg
  cases ser <;> cases cd <;> cases tc <;> cases w <;> cases fh <;> cases sy <;> cases ps <;>
    simp [write_json_atomic, Except.isOk, Except.toBool]

/-- Witness for C10: a sync failure leaves the old target intact, and the
all-success path installs the new JSON. -/
theorem C10_write_atomic_witness :
    (write_json_atomic ⟨false, false, false, false, true, false⟩ (some "j")
        ⟨some "old", none⟩).2.target = some "old" ∧
    ∃ j, (some "j" : Option String) = some j ∧
      (write_json_atomic ⟨false, false, false, false, false, false⟩ (some "j")
          ⟨some "old", none⟩).2.target = some j :=
  ⟨(C10_write_atomic ⟨false, false, false, false, true, false⟩ (some "j")
      ⟨some "old", none⟩).1 (by decide),
   (C10_write_atomic ⟨false, false, false, false, false, false⟩ (some "j")
      ⟨some "old", none⟩).2 (by decide)⟩

/-- Splitting a slash-free character list yields the singleton. -/
theorem splitOnSlash_no_slash (cs : List Char) (h : '/' ∉ cs) : splitOnSlash cs = [cs] := by
  induction cs with
  | nil => rfl
  | cons c rest ih =>
    have hc : ¬ c = '/' := fun e => h (e ▸ List.mem_cons_self c rest)
    have hr : '/' ∉ rest := fun m => h (List.mem_cons_of_mem _ m)
    simp only [splitOnSlash, ih hr, if_neg hc]

/-- The last element of a list is a member. -/
theorem getLast?_mem_of_eq {l : List Char} {a : Char} (h : l.getLast? = some a) : a ∈ l := by
  have heq := List.dropLast_append_getLast? a (show a ∈ l.getLast? from h ▸ rfl)
  rw [← heq]
  exact List.mem_append_right _ (List.mem_singleton_self a)

/-- A pattern without `/` and without a leading `!` parses as a plain
unanchored single-component pattern. -/
theorem parseGitPattern_simple (s : String)
    (hslash : '/' ∉ s.toList) (hbang : s.toList.head? ≠ some '!') :
    parseGitPattern s = ⟨false, false, false, [s.toList]⟩ := by
  unfold parseGitPattern
  set cs := s.toList with hcs
  have hbang' : (cs.head? == some '!') = false := by
    rw [beq_eq_false_iff_ne]
    exact hbang
  have hlast : (cs.getLast? == some '/') = false := by
    rw [beq_eq_false_iff_ne]
    intro hl
    exact hslash (getLast?_mem_of_eq hl)
  have hhead : (cs.head? == some '/') = false := by
    rw [beq_eq_false_iff_ne]
    intro hh
    cases hc : cs with
    | nil => rw [hc] at hh; cases hh
    | cons a rest =>
      rw [hc] at hh
      simp only [List.head?_cons, Option.some.injEq] at hh
      rw [hc] at hslash
      exact hslash (hh ▸ List.mem_cons_self a rest)
  have hcont : cs.contains '/' = false := by
    simpa using hslash
  simp [hbang', hlast, hhead, hcont, hslash, splitOnSlash_no_slash cs hslash]

/-- Once the gitignore precedence fold has seen a match and no later pattern
negates, the accumulator stays true. -/
theorem gitignoreFold_true (pats : List String) (p : Path) (d : Bool)
    (h : ∀ s ∈ pats, (parseGitPattern s).neg = false) :
    pats.foldl
      (fun acc s =>
        let gp := parseGitPattern s
        if gitPatMatch gp p d then !gp.neg else acc) true = true := by
  induction pats with
  | nil => rfl
  | cons a rest ih =>
    have ha := h a (List.mem_cons_self a rest)
    have hrest : ∀ s ∈ rest, (parseGitPattern s).neg = false :=
      fun s hs => h s (List.mem_cons_of_mem a hs)
    simp only [List.foldl_cons]
    by_cases hm : gitPatMatch (parseGitPattern a) p d
    · simp only [hm, if_true, ha, Bool.not_false]
      exact ih hrest
    · simp only [hm, if_neg, Bool.false_eq_true, if_false]
      exact ih hrest

/-- Without negation patterns, gitignore matching is plain existential
matching over the pattern list. -/
theorem gitignoreMatched_any (pats : List String) (p : Path) (d : Bool)
    (h : ∀ s ∈ pats, (parseGitPattern s).neg = false)
    (hex : ∃ s ∈ pats, gitPatMatch (parseGitPattern s) p d = true) :
    gitignoreMatched pats p d = true := by
  unfold gitignoreMatched
  induction pats with
  | nil =>
    obtain ⟨s, hs, -⟩ := hex
    cases hs
  | cons a rest ih =>
    have ha := h a (List.mem_cons_self a rest)
    have hrest : ∀ s ∈ rest, (parseGitPattern s).neg = false :=
      fun s hs => h s (List.mem_cons_of_mem a hs)
    simp only [List.foldl_cons]
    by_cases hm : gitPatMatch (parseGitPattern a) p d
    · simp only [hm, if_true, ha, Bool.not_false]
      exact gitignoreFold_true rest p d hrest
    · simp only [hm, Bool.false_eq_true, if_false]
      apply ih hrest
      obtain ⟨s, hs, hsm⟩ := hex
      rcases List.mem_cons.mp hs with rfl | hs'
      · exact absurd hsm (by simpa using hm)
      · exact ⟨s, hs', hsm⟩

/-- C1 (amended): for slash-free, non-negated patterns, every file in the
Patterns-mode desired set (root-anchored glob expansion) is also found by
`PatternMatcher::find_matching_files`; the desired set is a subset of
`findMatches` restricted to files, rather than equal to it, because glob
expansion anchors each pattern at the repository root while gitignore
semantics match unanchored patterns at any depth. -/
theorem C1_pattern_scan_subset_findMatches (pats : List String) (fs : FS)
    (h : ∀ pat ∈ pats, '/' ∉ pat.toList ∧ pat.toList.head? ≠ some '!') :
    ∀ f ∈ fs.files, f ∈ files_to_mark pats fs → f ∈ find_matching_files pats fs := by
  intro f hf hmem
  unfold files_to_mark at hmem
  rw [List.mem_filter] at hmem
  obtain ⟨-, hany⟩ := hmem
  rw [List.any_eq_true] at hany
  obtain ⟨pat, hpat, hmatch⟩ := hany
  obtain ⟨hslash, hbang⟩ := h pat hpat
  unfold globPathMatch at hmatch
  rw [splitOnSlash_no_slash _ hslash] at hmatch
  simp only [List.length_cons, List.length_nil, Bool.and_eq_true, beq_iff_eq] at hmatch
  obtain ⟨hlen, hall⟩ := hmatch
  obtain ⟨x, rfl⟩ := List.length_eq_one.mp hlen.symm
  simp only [List.zip_cons_cons, List.zip_nil_right, List.all_cons, List.all_nil,
    Bool.and_true] at hall
  unfold find_matching_files
  rw [List.mem_filter]
  refine ⟨hf, ?_⟩
  apply gitignoreMatched_any
  · intro s hs
    rw [parseGitPattern_simple s (h s hs).1 (h s hs).2]
  · refine ⟨pat, hpat, ?_⟩
    rw [parseGitPattern_simple pat hslash hbang]
    unfold gitPatMatch
    simp only [Bool.not_false, Bool.true_or, Bool.true_and]
    simpa using hall

/-- Witness for the amended C1 at the concrete tree and pattern. -/
theorem C1_pattern_scan_subset_findMatches_witness :
    (["test.log"] : Path) ∈ find_matching_files ["*.log"] fsLog :=
  C1_pattern_scan_subset_findMatches ["*.log"] fsLog (by decide) ["test.log"]
    (by decide) (by decide)

/-- C1 (counterexample): with the stored pattern `*.log` over a tree holding
`test.log` and `src/test.log`, the Patterns-mode desired set (glob expansion
anchored at the repo root) misses the nested file that
`PatternMatcher::find_matching_files` returns, so the two sets are not
equal. -/
theorem C1_counterexample :
    (["src", "test.log"] : Path) ∈ find_matching_files ["*.log"] fsLog ∧
    (["src", "test.log"] : Path) ∉ files_to_mark ["*.log"] fsLog ∧
    files_to_mark ["*.log"] fsLog ≠ find_matching_files ["*.log"] fsLog := by
  refine ⟨by decide, by decide, by decide⟩

/-- C2: evaluation at the failing input.  With rule `*.log`, file `a.log`
present in the VCS index (tracked), `get_git_ignored_files_in_path` still
returns `a.log`, while the VCS's own ignored-and-untracked listing (`git
ls-files --ignored --exclude-standard -o`) excludes it, so the GitIgnore-mode
desired set is not the VCS listing and a tracked file is a member. -/
theorem C2_tracked_file_divergence :
    (["a.log"] : Path) ∈ get_git_ignored_files_in_path ["*.log"] fsTracked ∧
    (["a.log"] : Path) ∈ ([["a.log"]] : List Path) ∧
    (["a.log"] : Path) ∉ vcsIgnoredUntracked ["*.log"] fsTracked [["a.log"]] ∧
    get_git_ignored_files_in_path ["*.log"] fsTracked ≠
      vcsIgnoredUntracked ["*.log"] fsTracked [["a.log"]] := by
  refine ⟨by decide, by decide, by decide, by decide⟩

/-- C4 (counterexample): the loop's timer is a fixed-period
`tokio::time::interval`, not a restarting window: with a relevant
`.gitignore` event at 499 ms, a reconciliation pass runs at the 500 ms tick,
only 1 ms after the event, so it is false that reconciliation runs only
after a 500 ms window elapses with no further events. -/
theorem C4_counterexample : ¬ debounceRestarts .GitIgnore burstTrace := by
  unfold debounceRestarts
  decide

/-- C9 (counterexample): `perform_tracked_files_scan` prints a success line
for every updated path with no cap: eleven tracked files all needing a
marker produce eleven success lines, exceeding the claimed cap of ten. -/
theorem C9_counterexample :
    ¬ ((perform_tracked_files_scan ["*"] fsEleven fsEleven.files []
          (fun _ => false)).ps ≤ 10) := by
  decide


/-- Membership after a successful marker add. -/
theorem addMark_mem (M : List Path) (p q : Path) :
    q ∈ addMark M p ↔ q ∈ M ∨ q = p := by
  unfold addMark
  by_cases h : p ∈ M
  · simp only [if_pos h]
    constructor
    · exact Or.inl
    · rintro (hq | rfl)
      · exact hq
      · exact h
  · simp only [if_neg h, List.mem_cons]
    tauto

/-- Membership after a successful marker removal. -/
theorem rmMark_mem (M : List Path) (p q : Path) :
    q ∈ rmMark M p ↔ q ∈ M ∧ q ≠ p := by
  simp [rmMark, List.mem_filter]

/-- Markers after the marking loop: the old markers plus every desired path
whose add call did not fail. -/
theorem markFold_markers_mem (fl : Path → Bool) (l : List Path) (st : ScanSt) (q : Path) :
    q ∈ (l.foldl (markStep fl) st).markers ↔
      q ∈ st.markers ∨ (q ∈ l ∧ fl q = false) := by
  induction l generalizing st with
  | nil => simp
  | cons p rest ih =>
    rw [List.foldl_cons, ih]
    unfold markStep
    by_cases h1 : hasMark st.markers p
    · have hp : p ∈ st.markers := by simpa [hasMark] using h1
      simp only [if_pos h1, List.mem_cons]
      constructor
      · rintro (hq | ⟨hq, hfq⟩)
        · exact Or.inl hq
        · exact Or.inr ⟨Or.inr hq, hfq⟩
      · rintro (hq | ⟨rfl | hq, hfq⟩)
        · exact Or.inl hq
        · exact Or.inl hp
        · exact Or.inr ⟨hq, hfq⟩
    · simp only [if_neg h1]
      by_cases h2 : fl p
      · simp only [if_pos h2, List.mem_cons]
        constructor
        · rintro (hq | ⟨hq, hfq⟩)
          · exact Or.inl hq
          · exact Or.inr ⟨Or.inr hq, hfq⟩
        · rintro (hq | ⟨rfl | hq, hfq⟩)
          · exact Or.inl hq
          · rw [h2] at hfq; cases hfq
          · exact Or.inr ⟨hq, hfq⟩
      · simp only [if_neg h2, addMark_mem, List.mem_cons]
        have h2' : fl p = false := by simpa using h2
        constructor
        · rintro ((hq | rfl) | ⟨hq, hfq⟩)
          · exact Or.inl hq
          · exact Or.inr ⟨Or.inl rfl, h2'⟩
          · exact Or.inr ⟨Or.inr hq, hfq⟩
        · rintro (hq | ⟨rfl | hq, hfq⟩)
          · exact Or.inl (Or.inl hq)
          · exact Or.inl (Or.inr rfl)
          · exact Or.inr ⟨hq, hfq⟩

/-- The marking loop is a no-op when every desired path is already marked. -/
theorem markFold_unchanged (fl : Path → Bool) (l : List Path) (st : ScanSt)
    (h : ∀ p ∈ l, hasMark st.markers p = true) :
    l.foldl (markStep fl) st = st := by
  induction l with
  | nil => rfl
  | cons p rest ih =>
    rw [List.foldl_cons]
    rw [show markStep fl st p = st by
      unfold markStep
      rw [if_pos (h p (List.mem_cons_self p rest))]]
    exact ih fun q hq => h q (List.mem_cons_of_mem p hq)


/-- Markers after the sweeping loop: a path survives unless it was swept —
listed, unwanted, not spared, and its removal did not fail. -/
theorem sweepFold_markers_mem (fl inSet spare : Path → Bool) (l : List Path)
    (st : ScanSt) (q : Path) :
    q ∈ (l.foldl (sweepStep fl inSet spare) st).markers ↔
      q ∈ st.markers ∧
        ¬(q ∈ l ∧ inSet q = false ∧ spare q = false ∧ fl q = false) := by
  induction l generalizing st with
  | nil => simp
  | cons m rest ih =>
    rw [List.foldl_cons, ih]
    unfold sweepStep
    by_cases h1 : (!inSet m && hasMark st.markers m) = true
    · rw [if_pos h1]
      obtain ⟨hin, hmem⟩ := Bool.and_eq_true_iff.mp h1
      have hin' : inSet m = false := by simpa using hin
      have hmem' : m ∈ st.markers := by simpa [hasMark] using hmem
      by_cases h2 : spare m = true
      · rw [if_pos h2]
        constructor
        · rintro ⟨hq, hnc⟩
          refine ⟨hq, ?_⟩
          rintro ⟨hql, hi, hsp, hf⟩
          rcases List.mem_cons.mp hql with rfl | hql'
          · rw [h2] at hsp; cases hsp
          · exact hnc ⟨hql', hi, hsp, hf⟩
        · rintro ⟨hq, hnc⟩
          refine ⟨hq, ?_⟩
          rintro ⟨hql, hi, hsp, hf⟩
          exact hnc ⟨List.mem_cons_of_mem m hql, hi, hsp, hf⟩
      · have h2' : spare m = false := by simpa using h2
        rw [if_neg h2]
        by_cases h3 : fl m = true
        · rw [if_pos h3]
          constructor
          · rintro ⟨hq, hnc⟩
            refine ⟨hq, ?_⟩
            rintro ⟨hql, hi, hsp, hf⟩
            rcases List.mem_cons.mp hql with rfl | hql'
            · rw [h3] at hf; cases hf
            · exact hnc ⟨hql', hi, hsp, hf⟩
          · rintro ⟨hq, hnc⟩
            refine ⟨hq, ?_⟩
            rintro ⟨hql, hi, hsp, hf⟩
            exact hnc ⟨List.mem_cons_of_mem m hql, hi, hsp, hf⟩
        · have h3' : fl m = false := by simpa using h3
          rw [if_neg h3]
          simp only [rmMark_mem]
          constructor
          · rintro ⟨⟨hq, hne⟩, hnc⟩
            refine ⟨hq, ?_⟩
            rintro ⟨hql, hi, hsp, hf⟩
            rcases List.mem_cons.mp hql with rfl | hql'
            · exact hne rfl
            · exact hnc ⟨hql', hi, hsp, hf⟩
          · rintro ⟨hq, hnc⟩
            by_cases hqm : q = m
            · subst hqm
              exact absurd ⟨List.mem_cons_self q rest, hin', h2', h3'⟩ hnc
            · refine ⟨⟨hq, hqm⟩, ?_⟩
              rintro ⟨hql, hi, hsp, hf⟩
              exact hnc ⟨List.mem_cons_of_mem m hql, hi, hsp, hf⟩
    · rw [if_neg h1]
      rw [Bool.and_eq_true_iff, not_and_or] at h1
      constructor
      · rintro ⟨hq, hnc⟩
        refine ⟨hq, ?_⟩
        rintro ⟨hql, hi, hsp, hf⟩
        rcases List.mem_cons.mp hql with rfl | hql'
        · rcases h1 with h1 | h1
          · rw [hi] at h1; simp at h1
          · have : q ∈ st.markers → False := by
              intro hmem
              exact h1 (by simpa [hasMark] using hmem)
            exact this hq
        · exact hnc ⟨hql', hi, hsp, hf⟩
      · rintro ⟨hq, hnc⟩
        refine ⟨hq, ?_⟩
        rintro ⟨hql, hi, hsp, hf⟩
        exact hnc ⟨List.mem_cons_of_mem m hql, hi, hsp, hf⟩

/-- The sweeping loop is a no-op when every listed path is wanted, spared,
or unmarked. -/
theorem sweepFold_unchanged (fl inSet spare : Path → Bool) (l : List Path) (st : ScanSt)
    (h : ∀ m ∈ l, inSet m = true ∨ spare m = true ∨ hasMark st.markers m = false) :
    l.foldl (sweepStep fl inSet spare) st = st := by
  induction l with
  | nil => rfl
  | cons m rest ih =>
    rw [List.foldl_cons]
    have hstep : sweepStep fl inSet spare st m = st := by
      unfold sweepStep
      rcases h m (List.mem_cons_self m rest) with hm | hm | hm
      · rw [show (!inSet m && hasMark st.markers m) = false by simp [hm]]
        simp
      · by_cases h1 : (!inSet m && hasMark st.markers m) = true
        · rw [if_pos h1, if_pos hm]
        · rw [if_neg h1]
      · rw [show (!inSet m && hasMark st.markers m) = false by simp [hm]]
        simp
    rw [hstep]
    exact ih fun q hq => h q (List.mem_cons_of_mem m hq)

/-- Membership in the marked-files walk: a visited file or directory that
carries a marker. -/
theorem find_marked_files_mem (fs : FS) (M : List Path) (m : Path) :
    m ∈ find_marked_files fs M ↔
      ((m ∈ fs.files ∧ m.dropLast.any (fun c => c == ".git") = false) ∨
        (m ∈ fs.dirs ∧ hasGitComp m = false)) ∧ m ∈ M := by
  simp only [find_marked_files, List.mem_append, List.mem_filter, Bool.and_eq_true,
    Bool.not_eq_true', hasMark, decide_eq_true_eq]
  tauto


/-- A GitIgnore-mode pass over markers that already contain every ignored
file, and whose marked walk only finds ignored files, changes nothing. -/
theorem gitignore_scan_noop (pats : List String) (fs : FS) (N : List Path)
    (h1 : ∀ p ∈ get_git_ignored_files_in_path pats fs, p ∈ N)
    (h2 : ∀ m ∈ find_marked_files fs N, m ∈ get_git_ignored_files_in_path pats fs) :
    perform_gitignore_scan pats fs N (fun _ => false) = ScanSt.init N := by
  have hmark : (get_git_ignored_files_in_path pats fs).foldl
      (markStep (fun _ => false)) (ScanSt.init N) = ScanSt.init N := by
    apply markFold_unchanged
    intro p hp
    simpa [hasMark, ScanSt.init] using h1 p hp
  have hdef : perform_gitignore_scan pats fs N (fun _ => false) =
      (find_marked_files fs
        ((get_git_ignored_files_in_path pats fs).foldl
          (markStep (fun _ => false)) (ScanSt.init N)).markers).foldl
        (sweepStep (fun _ => false)
          (fun m => decide (m ∈ get_git_ignored_files_in_path pats fs)) (fun _ => false))
        ((get_git_ignored_files_in_path pats fs).foldl
          (markStep (fun _ => false)) (ScanSt.init N)) := rfl
  rw [hdef, hmark]
  apply sweepFold_unchanged
  intro m hm
  left
  rw [decide_eq_true_eq]
  exact h2 m hm

/-- Marker membership after a GitIgnore-mode pass. -/
theorem gitignore_scan_markers_mem (pats : List String) (fs : FS) (M : List Path)
    (fl : Path → Bool) (q : Path) :
    q ∈ (perform_gitignore_scan pats fs M fl).markers ↔
      (q ∈ M ∨ (q ∈ get_git_ignored_files_in_path pats fs ∧ fl q = false)) ∧
        ¬(q ∈ find_marked_files fs
            ((get_git_ignored_files_in_path pats fs).foldl (markStep fl) (ScanSt.init M)).markers ∧
          q ∉ get_git_ignored_files_in_path pats fs ∧ fl q = false) := by
  have hdef : perform_gitignore_scan pats fs M fl =
      (find_marked_files fs
        ((get_git_ignored_files_in_path pats fs).foldl (markStep fl) (ScanSt.init M)).markers).foldl
        (sweepStep fl
          (fun m => decide (m ∈ get_git_ignored_files_in_path pats fs)) (fun _ => false))
        ((get_git_ignored_files_in_path pats fs).foldl (markStep fl) (ScanSt.init M)) := rfl
  rw [hdef, sweepFold_markers_mem, markFold_markers_mem]
  constructor
  · rintro ⟨hq, hnc⟩
    refine ⟨by simpa [ScanSt.init] using hq, ?_⟩
    rintro ⟨ha, hb, hc⟩
    exact hnc ⟨ha, decide_eq_false_iff_not.mpr hb, rfl, hc⟩
  · rintro ⟨hq, hnc⟩
    refine ⟨by simpa [ScanSt.init] using hq, ?_⟩
    rintro ⟨ha, hb, -, hc⟩
    exact hnc ⟨ha, decide_eq_false_iff_not.mp hb, hc⟩

/-- A second error-free GitIgnore-mode pass right after a first one leaves
the state at its initial value: no adds, removes or errors. -/
theorem gitignore_scan_idem (pats : List String) (fs : FS) (M : List Path) :
    perform_gitignore_scan pats fs
      (perform_gitignore_scan pats fs M (fun _ => false)).markers (fun _ => false) =
      ScanSt.init (perform_gitignore_scan pats fs M (fun _ => false)).markers := by
  set ig := get_git_ignored_files_in_path pats fs with hig
  set st1 := ig.foldl (markStep (fun _ => false)) (ScanSt.init M) with hst1
  apply gitignore_scan_noop
  · intro p hp
    rw [gitignore_scan_markers_mem]
    refine ⟨Or.inr ⟨hp, rfl⟩, ?_⟩
    rintro ⟨-, hni, -⟩
    exact hni hp
  · intro m hm
    rw [find_marked_files_mem] at hm
    obtain ⟨hentry, hmmem⟩ := hm
    rw [gitignore_scan_markers_mem] at hmmem
    obtain ⟨hst1m, hnc⟩ := hmmem
    by_contra hni
    apply hnc
    refine ⟨?_, hni, rfl⟩
    rw [find_marked_files_mem]
    refine ⟨hentry, ?_⟩
    rw [markFold_markers_mem]
    simpa [ScanSt.init] using hst1m


/-- A Patterns-mode pass over markers that already contain every matching
entry, and whose marked walk only finds matching or re-matching paths,
changes nothing. -/
theorem pattern_scan_noop (pats : List String) (fs : FS) (N : List Path)
    (h1 : ∀ p ∈ files_to_mark pats fs, p ∈ N)
    (h2 : ∀ m ∈ find_marked_files fs N,
      m ∈ files_to_mark pats fs ∨ pats.any (fun pat => globPathMatch pat m) = true) :
    perform_pattern_scan pats fs N (fun _ => false) = ScanSt.init N := by
  have hmark : (files_to_mark pats fs).foldl
      (markStep (fun _ => false)) (ScanSt.init N) = ScanSt.init N := by
    apply markFold_unchanged
    intro p hp
    simpa [hasMark, ScanSt.init] using h1 p hp
  have hdef : perform_pattern_scan pats fs N (fun _ => false) =
      (find_marked_files fs
        ((files_to_mark pats fs).foldl
          (markStep (fun _ => false)) (ScanSt.init N)).markers).foldl
        (sweepStep (fun _ => false)
          (fun m => decide (m ∈ files_to_mark pats fs))
          (fun m => pats.any (fun pat => globPathMatch pat m)))
        ((files_to_mark pats fs).foldl
          (markStep (fun _ => false)) (ScanSt.init N)) := rfl
  rw [hdef, hmark]
  apply sweepFold_unchanged
  intro m hm
  rcases h2 m hm with hin | hsp
  · left
    rw [decide_eq_true_eq]
    exact hin
  · right
    left
    exact hsp

/-- Marker membership after a Patterns-mode pass. -/
theorem pattern_scan_markers_mem (pats : List String) (fs : FS) (M : List Path)
    (fl : Path → Bool) (q : Path) :
    q ∈ (perform_pattern_scan pats fs M fl).markers ↔
      (q ∈ M ∨ (q ∈ files_to_mark pats fs ∧ fl q = false)) ∧
        ¬(q ∈ find_marked_files fs
            ((files_to_mark pats fs).foldl (markStep fl) (ScanSt.init M)).markers ∧
          q ∉ files_to_mark pats fs ∧
          pats.any (fun pat => globPathMatch pat q) = false ∧ fl q = false) := by
  have hdef : perform_pattern_scan pats fs M fl =
      (find_marked_files fs
        ((files_to_mark pats fs).foldl (markStep fl) (ScanSt.init M)).markers).foldl
        (sweepStep fl
          (fun m => decide (m ∈ files_to_mark pats fs))
          (fun m => pats.any (fun pat => globPathMatch pat m)))
        ((files_to_mark pats fs).foldl (markStep fl) (ScanSt.init M)) := rfl
  rw [hdef, sweepFold_markers_mem, markFold_markers_mem]
  constructor
  · rintro ⟨hq, hnc⟩
    refine ⟨by simpa [ScanSt.init] using hq, ?_⟩
    rintro ⟨ha, hb, hc, hd⟩
    exact hnc ⟨ha, decide_eq_false_iff_not.mpr hb, hc, hd⟩
  · rintro ⟨hq, hnc⟩
    refine ⟨by simpa [ScanSt.init] using hq, ?_⟩
    rintro ⟨ha, hb, hc, hd⟩
    exact hnc ⟨ha, decide_eq_false_iff_not.mp hb, hc, hd⟩

/-- A second error-free Patterns-mode pass right after a first one leaves
the state at its initial value. -/
theorem pattern_scan_idem (pats : List String) (fs : FS) (M : List Path) :
    perform_pattern_scan pats fs
      (perform_pattern_scan pats fs M (fun _ => false)).markers (fun _ => false) =
      ScanSt.init (perform_pattern_scan pats fs M (fun _ => false)).markers := by
  apply pattern_scan_noop
  · intro p hp
    rw [pattern_scan_markers_mem]
    refine ⟨Or.inr ⟨hp, rfl⟩, ?_⟩
    rintro ⟨-, hni, -, -⟩
    exact hni hp
  · intro m hm
    rw [find_marked_files_mem] at hm
    obtain ⟨hentry, hmmem⟩ := hm
    rw [pattern_scan_markers_mem] at hmmem
    obtain ⟨hst1m, hnc⟩ := hmmem
    by_cases hin : m ∈ files_to_mark pats fs
    · exact Or.inl hin
    by_cases hsp : pats.any (fun pat => globPathMatch pat m) = true
    · exact Or.inr hsp
    exfalso
    apply hnc
    refine ⟨?_, hin, by simpa using hsp, rfl⟩
    rw [find_marked_files_mem]
    refine ⟨hentry, ?_⟩
    rw [markFold_markers_mem]
    simpa [ScanSt.init] using hst1m


/-- The tracked-files loop never touches markers of paths it does not
process. -/
theorem trackedFold_markers_other (fs : FS) (ig : List Path) (fl : Path → Bool)
    (l : List Path) (st : TrackedScanSt) (q : Path) (hq : q ∉ l) :
    (q ∈ (l.foldl (trackedStep fs ig fl) st).markers ↔ q ∈ st.markers) := by
  induction l generalizing st with
  | nil => simp
  | cons p rest ih =>
    have hqp : q ≠ p := fun e => hq (e ▸ List.mem_cons_self p rest)
    have hqr : q ∉ rest := fun m => hq (List.mem_cons_of_mem p m)
    rw [List.foldl_cons, ih _ hqr]
    unfold trackedStep
    by_cases he : existsFs fs p
    · simp only [he, Bool.not_true, Bool.false_eq_true, if_false]
      by_cases h1 : (decide (p ∈ ig) && !hasMark st.markers p) = true
      · simp only [h1, if_true]
        by_cases hf : fl p
        · simp [hf]
        · simp [hf, addMark_mem, hqp]
      · simp only [h1, Bool.false_eq_true, if_false]
        by_cases h2 : (!decide (p ∈ ig) && hasMark st.markers p) = true
        · simp only [h2, if_true]
          by_cases hf : fl p
          · simp [hf]
          · simp [hf, rmMark_mem, hqp]
        · simp [h1, h2]
    · simp [he]

/-- Tracked-list membership after a tracked-files pass: an entry survives
unless it was processed and no longer exists. -/
theorem trackedFold_tracked_mem (fs : FS) (ig : List Path) (fl : Path → Bool)
    (l : List Path) (st : TrackedScanSt) (q : Path) :
    q ∈ (l.foldl (trackedStep fs ig fl) st).tracked ↔
      q ∈ st.tracked ∧ ¬(q ∈ l ∧ existsFs fs q = false) := by
  induction l generalizing st with
  | nil => simp
  | cons p rest ih =>
    rw [List.foldl_cons, ih]
    unfold trackedStep
    by_cases he : existsFs fs p
    · have hstep : (if !existsFs fs p then
          { st with tracked := st.tracked.filter (fun q => q ≠ p),
                    removed := st.removed + 1 }
        else
          let shouldBe := decide (p ∈ ig)
          let has := hasMark st.markers p
          if shouldBe && !has then
            if fl p then { st with errors := st.errors + 1, pe := st.pe + 1 }
            else { st with markers := addMark st.markers p, updated := st.updated + 1,
                           ps := st.ps + 1 }
          else if !shouldBe && has then
            if fl p then { st with errors := st.errors + 1, pe := st.pe + 1 }
            else { st with markers := rmMark st.markers p, updated := st.updated + 1,
                           ps := st.ps + 1 }
          else st).tracked = st.tracked := by
        simp only [he, Bool.not_true, Bool.false_eq_true, if_false]
        by_cases h1 : (decide (p ∈ ig) && !hasMark st.markers p) = true <;>
          by_cases h2 : (!decide (p ∈ ig) && hasMark st.markers p) = true <;>
            by_cases hf : fl p <;> simp [h1, h2, hf]
      rw [hstep]
      constructor
      · rintro ⟨hq, hnc⟩
        refine ⟨hq, ?_⟩
        rintro ⟨hql, hne⟩
        rcases List.mem_cons.mp hql with rfl | hql'
        · rw [he] at hne; cases hne
        · exact hnc ⟨hql', hne⟩
      · rintro ⟨hq, hnc⟩
        exact ⟨hq, fun h => hnc ⟨List.mem_cons_of_mem p h.1, h.2⟩⟩
    · have he' : existsFs fs p = false := by simpa using he
      simp only [he', Bool.not_false, if_true]
      simp only [List.mem_filter, decide_eq_true_eq]
      constructor
      · rintro ⟨⟨hq, hne⟩, hnc⟩
        refine ⟨hq, ?_⟩
        rintro ⟨hql, hqe⟩
        rcases List.mem_cons.mp hql with rfl | hql'
        · exact hne rfl
        · exact hnc ⟨hql', hqe⟩
      · rintro ⟨hq, hnc⟩
        by_cases hqp : q = p
        · subst hqp
          exact absurd ⟨List.mem_cons_self q rest, he'⟩ hnc
        · exact ⟨⟨hq, hqp⟩, fun h => hnc ⟨List.mem_cons_of_mem p h.1, h.2⟩⟩


/-- After an error-free tracked-files pass, every processed existing path is
marked exactly when it is git-ignored. -/
theorem trackedFold_markers_set (fs : FS) (ig : List Path) (l : List Path)
    (st : TrackedScanSt) (q : Path) (hql : q ∈ l) (hqe : existsFs fs q = true) :
    (q ∈ (l.foldl (trackedStep fs ig (fun _ => false)) st).markers ↔ q ∈ ig) := by
  induction l generalizing st with
  | nil => cases hql
  | cons p rest ih =>
    rw [List.foldl_cons]
    by_cases hqr : q ∈ rest
    · exact ih _ hqr
    · have hqp : q = p := by
        rcases List.mem_cons.mp hql with h | h
        · exact h
        · exact absurd h hqr
      subst hqp
      rw [trackedFold_markers_other _ _ _ _ _ _ hqr]
      unfold trackedStep
      simp only [hqe, Bool.not_true, Bool.false_eq_true, if_false]
      by_cases hig : q ∈ ig
      · by_cases hh : hasMark st.markers q
        · have hh' : q ∈ st.markers := by simpa [hasMark] using hh
          simp [hig, hh, hh']
        · simp [hig, hh, addMark_mem]
      · by_cases hh : hasMark st.markers q
        · simp [hig, hh, rmMark_mem]
        · have hh' : q ∉ st.markers := by simpa [hasMark] using hh
          simp [hig, hh, hh']

/-- The tracked-files loop is a no-op when every entry exists and its marker
already agrees with its git-ignored status. -/
theorem trackedFold_unchanged (fs : FS) (ig : List Path) (fl : Path → Bool)
    (l : List Path) (st : TrackedScanSt)
    (h : ∀ p ∈ l, existsFs fs p = true ∧ hasMark st.markers p = decide (p ∈ ig)) :
    l.foldl (trackedStep fs ig fl) st = st := by
  induction l with
  | nil => rfl
  | cons p rest ih =>
    obtain ⟨he, hm⟩ := h p (List.mem_cons_self p rest)
    have hstep : trackedStep fs ig fl st p = st := by
      unfold trackedStep
      simp [he, ← hm]
    rw [List.foldl_cons, hstep]
    exact ih fun q hq => h q (List.mem_cons_of_mem p hq)

/-- A second error-free TrackedFiles-mode pass right after a first one
changes nothing and reports zero counters. -/
theorem tracked_scan_idem (pats : List String) (fs : FS) (tracked M : List Path) :
    perform_tracked_files_scan pats fs
      (perform_tracked_files_scan pats fs tracked M (fun _ => false)).tracked
      (perform_tracked_files_scan pats fs tracked M (fun _ => false)).markers
      (fun _ => false) =
      ⟨(perform_tracked_files_scan pats fs tracked M (fun _ => false)).tracked,
        (perform_tracked_files_scan pats fs tracked M (fun _ => false)).markers,
        0, 0, 0, 0, 0⟩ := by
  set ig := get_git_ignored_files_in_path pats fs with hig
  set t1 := perform_tracked_files_scan pats fs tracked M (fun _ => false) with ht1
  have ht1def : t1 = tracked.foldl (trackedStep fs ig (fun _ => false))
      ⟨tracked, M, 0, 0, 0, 0, 0⟩ := rfl
  have hpass2 : perform_tracked_files_scan pats fs t1.tracked t1.markers (fun _ => false) =
      t1.tracked.foldl (trackedStep fs ig (fun _ => false))
        ⟨t1.tracked, t1.markers, 0, 0, 0, 0, 0⟩ := rfl
  rw [hpass2]
  apply trackedFold_unchanged
  intro p hp
  have hpt : p ∈ t1.tracked := hp
  rw [ht1def, trackedFold_tracked_mem] at hpt
  obtain ⟨hptr, hnc⟩ := hpt
  have he : existsFs fs p = true := by
    by_contra hne
    exact hnc ⟨hptr, by simpa using hne⟩
  refine ⟨he, ?_⟩
  have hms : p ∈ t1.markers ↔ p ∈ ig := by
    rw [ht1def]
    exact trackedFold_markers_set fs ig tracked _ p hptr he
  show decide (p ∈ t1.markers) = decide (p ∈ ig)
  exact decide_eq_decide.mpr hms


/-- C3: reconciliation is idempotent in every watch mode: an error-free pass
followed immediately by a second pass with no intervening filesystem or
marker change yields zero Add and zero Remove actions (and for TrackedFiles
mode, zero marker updates and zero tracking removals) on the second pass. -/
theorem C3_reconciliation_idempotent (pats : List String) (fs : FS) (M tracked : List Path) :
    ((perform_gitignore_scan pats fs
        (perform_gitignore_scan pats fs M (fun _ => false)).markers (fun _ => false)).added = 0 ∧
      (perform_gitignore_scan pats fs
        (perform_gitignore_scan pats fs M (fun _ => false)).markers (fun _ => false)).removed = 0) ∧
    ((perform_pattern_scan pats fs
        (perform_pattern_scan pats fs M (fun _ => false)).markers (fun _ => false)).added = 0 ∧
      (perform_pattern_scan pats fs
        (perform_pattern_scan pats fs M (fun _ => false)).markers (fun _ => false)).removed = 0) ∧
    ((perform_tracked_files_scan pats fs
        (perform_tracked_files_scan pats fs tracked M (fun _ => false)).tracked
        (perform_tracked_files_scan pats fs tracked M (fun _ => false)).markers
        (fun _ => false)).updated = 0 ∧
      (perform_tracked_files_scan pats fs
        (perform_tracked_files_scan pats fs tracked M (fun _ => false)).tracked
        (perform_tracked_files_scan pats fs tracked M (fun _ => false)).markers
        (fun _ => false)).removed = 0) := by
  refine ⟨⟨?_, ?_⟩, ⟨?_, ?_⟩, ⟨?_, ?_⟩⟩
  · rw [gitignore_scan_idem]; rfl
  · rw [gitignore_scan_idem]; rfl
  · rw [pattern_scan_idem]; rfl
  · rw [pattern_scan_idem]; rfl
  · rw [tracked_scan_idem]
  · rw [tracked_scan_idem]



/-- Inserting into the pending set never leaves it empty. -/
theorem insertPending_ne_nil (pend : List Path) (p : Path) : insertPending pend p ≠ [] := by
  unfold insertPending
  by_cases h : p ∈ pend
  · rw [if_pos h]
    exact List.ne_nil_of_mem h
  · rw [if_neg h]
    exact List.cons_ne_nil p pend

/-- Consuming events never empties a non-empty pending set. -/
theorem pendAfter_preserves_ne_nil (mode : WatchMode) (evs : List Event)
    (pend : List Path) (h : pend ≠ []) : pendAfter mode evs pend ≠ [] := by
  induction evs generalizing pend with
  | nil => exact h
  | cons a rest ih =>
    show pendAfter mode rest _ ≠ []
    by_cases ha : should_trigger_rescan a mode
    · refine ih _ ?_
      simp only [ha, if_true]
      exact insertPending_ne_nil _ _
    · rw [Bool.not_eq_true] at ha
      refine ih _ ?_
      simp only [ha, Bool.false_eq_true, if_false]
      exact h

/-- After at least one relevant event, the pending set is non-empty. -/
theorem pendAfter_ne_nil (mode : WatchMode) (evs : List Event) (pend : List Path)
    (h : ∃ e ∈ evs, should_trigger_rescan e mode = true) :
    pendAfter mode evs pend ≠ [] := by
  induction evs generalizing pend with
  | nil =>
    obtain ⟨e, he, -⟩ := h
    cases he
  | cons a rest ih =>
    show pendAfter mode rest _ ≠ []
    by_cases ha : should_trigger_rescan a mode
    · apply pendAfter_preserves_ne_nil
      simp only [ha, if_true]
      exact insertPending_ne_nil _ _
    · apply ih
      obtain ⟨e, he, hrel⟩ := h
      rcases List.mem_cons.mp he with rfl | he'
      · exact absurd hrel (by simpa using ha)
      · exact ⟨e, he', hrel⟩

/-- Consuming a burst of events followed by one timer tick triggers exactly
one pass when the pending set ended up non-empty, and none otherwise. -/
theorem scanCount_decomp (mode : WatchMode) (evs : List Event) (pend : List Path) :
    scanCount mode (evs.map .fsev ++ [.tick]) pend =
      if (pendAfter mode evs pend).isEmpty then 0 else 1 := by
  induction evs generalizing pend with
  | nil =>
    show (if pend.isEmpty then (pend, 0) else ([], 1)).2 +
      scanCount mode [] (if pend.isEmpty then (pend, 0) else ([], 1)).1 =
      if pend.isEmpty then 0 else 1
    by_cases h : pend.isEmpty <;> simp [h, scanCount]
  | cons a rest ih =>
    show 0 + scanCount mode (rest.map .fsev ++ [.tick]) _ = _
    rw [Nat.zero_add, ih]
    rfl

/-- C4 (amended): any burst of N >= 1 filesystem events containing at least
one relevant event, arriving between two ticks of the fixed-period 500 ms
timer, triggers exactly one reconciliation pass at the next tick — not N.
The timer is a fixed-period interval that events do not restart or extend. -/
theorem C4_burst_single_scan (mode : WatchMode) (evs : List Event)
    (h : ∃ e ∈ evs, should_trigger_rescan e mode = true) :
    scanCount mode (evs.map .fsev ++ [.tick]) [] = 1 := by
  rw [scanCount_decomp]
  rw [if_neg ?_]
  rw [List.isEmpty_iff]
  exact pendAfter_ne_nil mode evs [] h

/-- Witness for the amended C4 at a concrete one-event burst. -/
theorem C4_burst_single_scan_witness :
    scanCount .GitIgnore ([gitignoreEvent].map .fsev ++ [.tick]) [] = 1 :=
  C4_burst_single_scan .GitIgnore [gitignoreEvent]
    ⟨gitignoreEvent, List.mem_cons_self _ _, by decide⟩



/-- The marking loop maintains the printed-line caps: success lines track
the adds up to 10, error lines track the errors up to 5. -/
theorem markFold_print_inv (fl : Path → Bool) (l : List Path) (st : ScanSt)
    (h : st.pa = min st.added 10 ∧ st.pr = min st.removed 10 ∧ st.pe = min st.errors 5) :
    (l.foldl (markStep fl) st).pa = min (l.foldl (markStep fl) st).added 10 ∧
    (l.foldl (markStep fl) st).pr = min (l.foldl (markStep fl) st).removed 10 ∧
    (l.foldl (markStep fl) st).pe = min (l.foldl (markStep fl) st).errors 5 := by
  induction l generalizing st with
  | nil => exact h
  | cons p rest ih =>
    rw [List.foldl_cons]
    apply ih
    obtain ⟨h1, h2, h3⟩ := h
    unfold markStep
    by_cases hm : hasMark st.markers p
    · simp only [if_pos hm]
      exact ⟨h1, h2, h3⟩
    · rw [if_neg hm]
      by_cases hf : fl p
      · simp only [if_pos hf]
        refine ⟨h1, h2, ?_⟩
        show (if st.errors + 1 ≤ 5 then st.pe + 1 else st.pe) = min (st.errors + 1) 5
        split <;> omega
      · simp only [if_neg hf]
        refine ⟨?_, h2, h3⟩
        show (if st.added + 1 ≤ 10 then st.pa + 1 else st.pa) = min (st.added + 1) 10
        split <;> omega

/-- The sweeping loop maintains the printed-line caps: success lines track
the removals up to 10, error lines track the errors up to 5. -/
theorem sweepFold_print_inv (fl inSet spare : Path → Bool) (l : List Path) (st : ScanSt)
    (h : st.pa = min st.added 10 ∧ st.pr = min st.removed 10 ∧ st.pe = min st.errors 5) :
    (l.foldl (sweepStep fl inSet spare) st).pa =
      min (l.foldl (sweepStep fl inSet spare) st).added 10 ∧
    (l.foldl (sweepStep fl inSet spare) st).pr =
      min (l.foldl (sweepStep fl inSet spare) st).removed 10 ∧
    (l.foldl (sweepStep fl inSet spare) st).pe =
      min (l.foldl (sweepStep fl inSet spare) st).errors 5 := by
  induction l generalizing st with
  | nil => exact h
  | cons m rest ih =>
    rw [List.foldl_cons]
    apply ih
    obtain ⟨h1, h2, h3⟩ := h
    unfold sweepStep
    by_cases hc : (!inSet m && hasMark st.markers m) = true
    · rw [if_pos hc]
      by_cases hsp : spare m = true
      · rw [if_pos hsp]
        exact ⟨h1, h2, h3⟩
      · rw [if_neg hsp]
        by_cases hf : fl m = true
        · rw [if_pos hf]
          refine ⟨h1, h2, ?_⟩
          show (if st.errors + 1 ≤ 5 then st.pe + 1 else st.pe) = min (st.errors + 1) 5
          split <;> omega
        · rw [if_neg hf]
          refine ⟨h1, ?_, h3⟩
          show (if st.removed + 1 ≤ 10 then st.pr + 1 else st.pr) = min (st.removed + 1) 10
          split <;> omega
    · rw [if_neg hc]
      exact ⟨h1, h2, h3⟩

/-- C9 (amended): in GitIgnore and Patterns modes a reconciliation pass
prints at most 10 add-success lines, at most 10 remove-success lines and at
most 5 error lines, and the overflow lines account exactly for the paths
beyond each cap.  (TrackedFiles mode prints every line uncapped — see the
counterexample.) -/
theorem C9_output_caps (pats : List String) (fs : FS) (M : List Path) (fl : Path → Bool) :
    ((perform_gitignore_scan pats fs M fl).pa ≤ 10 ∧
      (perform_gitignore_scan pats fs M fl).pr ≤ 10 ∧
      (perform_gitignore_scan pats fs M fl).pe ≤ 5 ∧
      (perform_gitignore_scan pats fs M fl).pa +
          overflowAdded (perform_gitignore_scan pats fs M fl) =
        (perform_gitignore_scan pats fs M fl).added ∧
      (perform_gitignore_scan pats fs M fl).pr +
          overflowRemoved (perform_gitignore_scan pats fs M fl) =
        (perform_gitignore_scan pats fs M fl).removed ∧
      (perform_gitignore_scan pats fs M fl).pe +
          overflowErrors (perform_gitignore_scan pats fs M fl) =
        (perform_gitignore_scan pats fs M fl).errors) ∧
    ((perform_pattern_scan pats fs M fl).pa ≤ 10 ∧
      (perform_pattern_scan pats fs M fl).pr ≤ 10 ∧
      (perform_pattern_scan pats fs M fl).pe ≤ 5 ∧
      (perform_pattern_scan pats fs M fl).pa +
          overflowAdded (perform_pattern_scan pats fs M fl) =
        (perform_pattern_scan pats fs M fl).added ∧
      (perform_pattern_scan pats fs M fl).pr +
          overflowRemoved (perform_pattern_scan pats fs M fl) =
        (perform_pattern_scan pats fs M fl).removed ∧
      (perform_pattern_scan pats fs M fl).pe +
          overflowErrors (perform_pattern_scan pats fs M fl) =
        (perform_pattern_scan pats fs M fl).errors) := by
  have hinit : (ScanSt.init M).pa = min (ScanSt.init M).added 10 ∧
      (ScanSt.init M).pr = min (ScanSt.init M).removed 10 ∧
      (ScanSt.init M).pe = min (ScanSt.init M).errors 5 := by
    simp [ScanSt.init]
  have hg := sweepFold_print_inv fl
    (fun m => decide (m ∈ get_git_ignored_files_in_path pats fs)) (fun _ => false)
    (find_marked_files fs
      ((get_git_ignored_files_in_path pats fs).foldl (markStep fl) (ScanSt.init M)).markers)
    ((get_git_ignored_files_in_path pats fs).foldl (markStep fl) (ScanSt.init M))
    (markFold_print_inv fl _ _ hinit)
  have hp := sweepFold_print_inv fl
    (fun m => decide (m ∈ files_to_mark pats fs))
    (fun m => pats.any (fun pat => globPathMatch pat m))
    (find_marked_files fs
      ((files_to_mark pats fs).foldl (markStep fl) (ScanSt.init M)).markers)
    ((files_to_mark pats fs).foldl (markStep fl) (ScanSt.init M))
    (markFold_print_inv fl _ _ hinit)
  have hgdef : perform_gitignore_scan pats fs M fl =
      (find_marked_files fs
        ((get_git_ignored_files_in_path pats fs).foldl (markStep fl) (ScanSt.init M)).markers).foldl
        (sweepStep fl
          (fun m => decide (m ∈ get_git_ignored_files_in_path pats fs)) (fun _ => false))
        ((get_git_ignored_files_in_path pats fs).foldl (markStep fl) (ScanSt.init M)) := rfl
  have hpdef : perform_pattern_scan pats fs M fl =
      (find_marked_files fs
        ((files_to_mark pats fs).foldl (markStep fl) (ScanSt.init M)).markers).foldl
        (sweepStep fl
          (fun m => decide (m ∈ files_to_mark pats fs))
          (fun m => pats.any (fun pat => globPathMatch pat m)))
        ((files_to_mark pats fs).foldl (markStep fl) (ScanSt.init M)) := rfl
  rw [hgdef, hpdef]
  obtain ⟨hg1, hg2, hg3⟩ := hg
  obtain ⟨hp1, hp2, hp3⟩ := hp
  unfold overflowAdded overflowRemoved overflowErrors
  constructor
  · refine ⟨?_, ?_, ?_, ?_, ?_, ?_⟩
    · rw [hg1, Nat.min_def]
      split <;> omega
    · rw [hg2, Nat.min_def]
      split <;> omega
    · rw [hg3, Nat.min_def]
      split <;> omega
    · rw [hg1, Nat.min_def]
      split <;> split <;> omega
    · rw [hg2, Nat.min_def]
      split <;> split <;> omega
    · rw [hg3, Nat.min_def]
      split <;> split <;> omega
  · refine ⟨?_, ?_, ?_, ?_, ?_, ?_⟩
    · rw [hp1, Nat.min_def]
      split <;> omega
    · rw [hp2, Nat.min_def]
      split <;> omega
    · rw [hp3, Nat.min_def]
      split <;> omega
    · rw [hp1, Nat.min_def]
      split <;> split <;> omega
    · rw [hp2, Nat.min_def]
      split <;> split <;> omega
    · rw [hp3, Nat.min_def]
      split <;> split <;> omega



/-- Adding a marker to one path leaves other paths' marker status unchanged. -/
theorem hasMark_addMark_ne (M : List Path) (p q : Path) (h : q ≠ p) :
    hasMark (addMark M p) q = hasMark M q := by
  unfold hasMark
  apply decide_eq_decide.mpr
  rw [addMark_mem]
  exact ⟨fun hq => hq.resolve_right h, Or.inl⟩

/-- Removing a marker from one path leaves other paths' marker status
unchanged. -/
theorem hasMark_rmMark_ne (M : List Path) (p q : Path) (h : q ≠ p) :
    hasMark (rmMark M p) q = hasMark M q := by
  unfold hasMark
  apply decide_eq_decide.mpr
  rw [rmMark_mem]
  exact ⟨And.left, fun hq => ⟨hq, h⟩⟩

/-- Exact add count of the marking loop over a duplicate-free desired list:
one add per unmarked path whose add call succeeds. -/
theorem markFold_added (fl : Path → Bool) (l : List Path) (st : ScanSt) (hN : l.Nodup) :
    (l.foldl (markStep fl) st).added =
      st.added + (l.filter (fun p => !hasMark st.markers p && !fl p)).length := by
  induction l generalizing st with
  | nil => simp
  | cons p rest ih =>
    obtain ⟨hp, hNr⟩ := List.nodup_cons.mp hN
    rw [List.foldl_cons]
    by_cases hm : hasMark st.markers p = true
    · have hstep : markStep fl st p = st := by
        unfold markStep
        rw [if_pos hm]
      have hfil : List.filter (fun q => !hasMark st.markers q && !fl q) (p :: rest) =
          List.filter (fun q => !hasMark st.markers q && !fl q) rest := by
        simp [List.filter_cons, hm]
      rw [hstep, ih st hNr, hfil]
    · have hm' : hasMark st.markers p = false := by simpa using hm
      by_cases hf : fl p = true
      · have hstep : markStep fl st p =
            { st with errors := st.errors + 1,
                      pe := if st.errors + 1 ≤ 5 then st.pe + 1 else st.pe } := by
          unfold markStep
          rw [if_neg hm, if_pos hf]
        have hfil : List.filter (fun q => !hasMark st.markers q && !fl q) (p :: rest) =
            List.filter (fun q => !hasMark st.markers q && !fl q) rest := by
          simp [List.filter_cons, hf]
        rw [hstep, ih _ hNr, hfil]
      · have hf' : fl p = false := by simpa using hf
        have hstep : markStep fl st p =
            { st with markers := addMark st.markers p,
                      added := st.added + 1,
                      pa := if st.added + 1 ≤ 10 then st.pa + 1 else st.pa } := by
          unfold markStep
          rw [if_neg hm, if_neg hf]
        have hfil : List.filter (fun q => !hasMark st.markers q && !fl q) (p :: rest) =
            p :: List.filter (fun q => !hasMark st.markers q && !fl q) rest := by
          simp [List.filter_cons, hm', hf']
        rw [hstep, ih _ hNr, hfil]
        have hcongr : rest.filter
            (fun q => !hasMark (addMark st.markers p) q && !fl q) =
            rest.filter (fun q => !hasMark st.markers q && !fl q) := by
          apply List.filter_congr
          intro q hq
          rw [hasMark_addMark_ne st.markers p q (fun e => hp (e ▸ hq))]
        show st.added + 1 + (rest.filter
            (fun q => !hasMark (addMark st.markers p) q && !fl q)).length = _
        rw [hcongr, List.length_cons]
        omega

/-- Exact error count of the marking loop over a duplicate-free desired
list: one error per unmarked path whose add call fails. -/
theorem markFold_errors (fl : Path → Bool) (l : List Path) (st : ScanSt) (hN : l.Nodup) :
    (l.foldl (markStep fl) st).errors =
      st.errors + (l.filter (fun p => !hasMark st.markers p && fl p)).length := by
  induction l generalizing st with
  | nil => simp
  | cons p rest ih =>
    obtain ⟨hp, hNr⟩ := List.nodup_cons.mp hN
    rw [List.foldl_cons]
    by_cases hm : hasMark st.markers p = true
    · have hstep : markStep fl st p = st := by
        unfold markStep
        rw [if_pos hm]
      have hfil : List.filter (fun q => !hasMark st.markers q && fl q) (p :: rest) =
          List.filter (fun q => !hasMark st.markers q && fl q) rest := by
        simp [List.filter_cons, hm]
      rw [hstep, ih st hNr, hfil]
    · have hm' : hasMark st.markers p = false := by simpa using hm
      by_cases hf : fl p = true
      · have hstep : markStep fl st p =
            { st with errors := st.errors + 1,
                      pe := if st.errors + 1 ≤ 5 then st.pe + 1 else st.pe } := by
          unfold markStep
          rw [if_neg hm, if_pos hf]
        have hfil : List.filter (fun q => !hasMark st.markers q && fl q) (p :: rest) =
            p :: List.filter (fun q => !hasMark st.markers q && fl q) rest := by
          simp [List.filter_cons, hm', hf]
        rw [hstep, ih _ hNr, hfil]
        show st.errors + 1 +
            (rest.filter (fun q => !hasMark st.markers q && fl q)).length =
          st.errors + (p :: rest.filter (fun q => !hasMark st.markers q && fl q)).length
        rw [List.length_cons]
        omega
      · have hf' : fl p = false := by simpa using hf
        have hstep : markStep fl st p =
            { st with markers := addMark st.markers p,
                      added := st.added + 1,
                      pa := if st.added + 1 ≤ 10 then st.pa + 1 else st.pa } := by
          unfold markStep
          rw [if_neg hm, if_neg hf]
        have hfil : List.filter (fun q => !hasMark st.markers q && fl q) (p :: rest) =
            List.filter (fun q => !hasMark st.markers q && fl q) rest := by
          simp [List.filter_cons, hf']
        rw [hstep, ih _ hNr, hfil]
        have hcongr : rest.filter
            (fun q => !hasMark (addMark st.markers p) q && fl q) =
            rest.filter (fun q => !hasMark st.markers q && fl q) := by
          apply List.filter_congr
          intro q hq
          rw [hasMark_addMark_ne st.markers p q (fun e => hp (e ▸ hq))]
        show st.errors + (rest.filter
            (fun q => !hasMark (addMark st.markers p) q && fl q)).length = _
        rw [hcongr]

/-- The marking loop never removes. -/
theorem markFold_removed (fl : Path → Bool) (l : List Path) (st : ScanSt) :
    (l.foldl (markStep fl) st).removed = st.removed := by
  induction l generalizing st with
  | nil => rfl
  | cons p rest ih =>
    rw [List.foldl_cons, ih]
    unfold markStep
    split_ifs <;> rfl

/-- The sweeping loop never adds. -/
theorem sweepFold_added (fl inSet spare : Path → Bool) (l : List Path) (st : ScanSt) :
    (l.foldl (sweepStep fl inSet spare) st).added = st.added := by
  induction l generalizing st with
  | nil => rfl
  | cons m rest ih =>
    rw [List.foldl_cons, ih]
    unfold sweepStep
    split_ifs <;> rfl

/-- Exact removal and error counts of the sweeping loop over a
duplicate-free list of marked paths: one removal per unwanted, unspared path
whose removal succeeds, one error per one whose removal fails. -/
theorem sweepFold_counts (fl inSet spare : Path → Bool) (l : List Path) (st : ScanSt)
    (hN : l.Nodup) (hall : ∀ m ∈ l, hasMark st.markers m = true) :
    (l.foldl (sweepStep fl inSet spare) st).removed =
      st.removed + (l.filter (fun m => !inSet m && !spare m && !fl m)).length ∧
    (l.foldl (sweepStep fl inSet spare) st).errors =
      st.errors + (l.filter (fun m => !inSet m && !spare m && fl m)).length := by
  induction l generalizing st with
  | nil => simp
  | cons m rest ih =>
    obtain ⟨hm, hNr⟩ := List.nodup_cons.mp hN
    have hmk := hall m (List.mem_cons_self m rest)
    have hallr : ∀ q ∈ rest, hasMark st.markers q = true :=
      fun q hq => hall q (List.mem_cons_of_mem m hq)
    rw [List.foldl_cons]
    have hcond : (!inSet m && hasMark st.markers m) = !inSet m := by
      rw [hmk, Bool.and_true]
    by_cases hin : inSet m = true
    · have hstep : sweepStep fl inSet spare st m = st := by
        unfold sweepStep
        rw [hcond, hin]
        simp
      have hfil1 : List.filter (fun q => !inSet q && !spare q && !fl q) (m :: rest) =
          List.filter (fun q => !inSet q && !spare q && !fl q) rest := by
        simp [List.filter_cons, hin]
      have hfil2 : List.filter (fun q => !inSet q && !spare q && fl q) (m :: rest) =
          List.filter (fun q => !inSet q && !spare q && fl q) rest := by
        simp [List.filter_cons, hin]
      rw [hstep, hfil1, hfil2]
      exact ih st hNr hallr
    · have hin' : inSet m = false := by simpa using hin
      by_cases hsp : spare m = true
      · have hstep : sweepStep fl inSet spare st m = st := by
          unfold sweepStep
          rw [hcond, hin']
          simp [hsp]
        have hfil1 : List.filter (fun q => !inSet q && !spare q && !fl q) (m :: rest) =
            List.filter (fun q => !inSet q && !spare q && !fl q) rest := by
          simp [List.filter_cons, hsp]
        have hfil2 : List.filter (fun q => !inSet q && !spare q && fl q) (m :: rest) =
            List.filter (fun q => !inSet q && !spare q && fl q) rest := by
          simp [List.filter_cons, hsp]
        rw [hstep, hfil1, hfil2]
        exact ih st hNr hallr
      · have hsp' : spare m = false := by simpa using hsp
        by_cases hf : fl m = true
        · have hstep : sweepStep fl inSet spare st m =
              { st with errors := st.errors + 1,
                        pe := if st.errors + 1 ≤ 5 then st.pe + 1 else st.pe } := by
            unfold sweepStep
            rw [hcond, hin']
            simp [hsp', hf]
          have hfil1 : List.filter (fun q => !inSet q && !spare q && !fl q) (m :: rest) =
              List.filter (fun q => !inSet q && !spare q && !fl q) rest := by
            simp [List.filter_cons, hf]
          have hfil2 : List.filter (fun q => !inSet q && !spare q && fl q) (m :: rest) =
              m :: List.filter (fun q => !inSet q && !spare q && fl q) rest := by
            simp [List.filter_cons, hin', hsp', hf]
          rw [hstep, hfil1, hfil2]
          obtain ⟨ihr, ihe⟩ := ih
            { st with errors := st.errors + 1,
                      pe := if st.errors + 1 ≤ 5 then st.pe + 1 else st.pe } hNr
            (fun q hq => hallr q hq)
          refine ⟨by rw [ihr], ?_⟩
          rw [ihe, List.length_cons]
          show st.errors + 1 +
              (List.filter (fun q => !inSet q && !spare q && fl q) rest).length =
            st.errors +
              ((List.filter (fun q => !inSet q && !spare q && fl q) rest).length + 1)
          omega
        · have hf' : fl m = false := by simpa using hf
          have hstep : sweepStep fl inSet spare st m =
              { st with markers := rmMark st.markers m,
                        removed := st.removed + 1,
                        pr := if st.removed + 1 ≤ 10 then st.pr + 1 else st.pr } := by
            unfold sweepStep
            rw [hcond, hin']
            simp [hsp', hf']
          have hfil1 : List.filter (fun q => !inSet q && !spare q && !fl q) (m :: rest) =
              m :: List.filter (fun q => !inSet q && !spare q && !fl q) rest := by
            simp [List.filter_cons, hin', hsp', hf']
          have hfil2 : List.filter (fun q => !inSet q && !spare q && fl q) (m :: rest) =
              List.filter (fun q => !inSet q && !spare q && fl q) rest := by
            simp [List.filter_cons, hf']
          have hallr' : ∀ q ∈ rest,
              hasMark (rmMark st.markers m) q = true := by
            intro q hq
            rw [hasMark_rmMark_ne st.markers m q (fun e => hm (e ▸ hq))]
            exact hallr q hq
          rw [hstep, hfil1, hfil2]
          obtain ⟨ihr, ihe⟩ := ih
            { st with markers := rmMark st.markers m,
                      removed := st.removed + 1,
                      pr := if st.removed + 1 ≤ 10 then st.pr + 1 else st.pr } hNr
            (fun q hq => hallr' q hq)
          constructor
          · rw [ihr, List.length_cons]
            show st.removed + 1 +
                (List.filter (fun q => !inSet q && !spare q && !fl q) rest).length =
              st.removed +
                ((List.filter (fun q => !inSet q && !spare q && !fl q) rest).length + 1)
            omega
          · rw [ihe]

/-- Exact counts of the tracked-files loop over a duplicate-free tracked
list: one tracking removal per vanished path, one marker update per existing
path whose marker disagrees with its git-ignored status and whose store call
succeeds, one error per one whose store call fails. -/
theorem trackedFold_counts (fs : FS) (ig : List Path) (fl : Path → Bool)
    (l : List Path) (st : TrackedScanSt) (hN : l.Nodup) :
    (l.foldl (trackedStep fs ig fl) st).removed =
      st.removed + (l.filter (fun p => !existsFs fs p)).length ∧
    (l.foldl (trackedStep fs ig fl) st).updated =
      st.updated + (l.filter (fun p =>
        existsFs fs p && (decide (p ∈ ig) != hasMark st.markers p) && !fl p)).length ∧
    (l.foldl (trackedStep fs ig fl) st).errors =
      st.errors + (l.filter (fun p =>
        existsFs fs p && (decide (p ∈ ig) != hasMark st.markers p) && fl p)).length := by
  induction l generalizing st with
  | nil => simp
  | cons p rest ih =>
    obtain ⟨hp, hNr⟩ := List.nodup_cons.mp hN
    rw [List.foldl_cons]
    by_cases he : existsFs fs p = true
    · by_cases hig : decide (p ∈ ig) = true
      · by_cases hm : hasMark st.markers p = true
        · -- should be ignored and already marked: no action
          have hstep : trackedStep fs ig fl st p = st := by
            unfold trackedStep
            simp [he, hig, hm]
          have hbne : (decide (p ∈ ig) != hasMark st.markers p) = false := by
            rw [hig, hm]
            rfl
          have hfil1 : List.filter (fun q => !existsFs fs q) (p :: rest) =
              List.filter (fun q => !existsFs fs q) rest := by
            simp [List.filter_cons, he]
          have hfil2 : List.filter (fun q =>
              existsFs fs q && (decide (q ∈ ig) != hasMark st.markers q) && !fl q)
                (p :: rest) =
              List.filter (fun q =>
                existsFs fs q && (decide (q ∈ ig) != hasMark st.markers q) && !fl q)
                rest := by
            simp [List.filter_cons, hbne]
          have hfil3 : List.filter (fun q =>
              existsFs fs q && (decide (q ∈ ig) != hasMark st.markers q) && fl q)
                (p :: rest) =
              List.filter (fun q =>
                existsFs fs q && (decide (q ∈ ig) != hasMark st.markers q) && fl q)
                rest := by
            simp [List.filter_cons, hbne]
          rw [hstep, hfil1, hfil2, hfil3]
          exact ih st hNr
        · -- should be ignored, not marked: add
          have hm' : hasMark st.markers p = false := by simpa using hm
          have hbne : (decide (p ∈ ig) != hasMark st.markers p) = true := by
            rw [hig, hm']
            rfl
          by_cases hf : fl p = true
          · have hstep : trackedStep fs ig fl st p =
                { st with errors := st.errors + 1, pe := st.pe + 1 } := by
              unfold trackedStep
              simp [he, hig, hm', hf]
            have hfil1 : List.filter (fun q => !existsFs fs q) (p :: rest) =
                List.filter (fun q => !existsFs fs q) rest := by
              simp [List.filter_cons, he]
            have hfil2 : List.filter (fun q =>
                existsFs fs q && (decide (q ∈ ig) != hasMark st.markers q) && !fl q)
                  (p :: rest) =
                List.filter (fun q =>
                  existsFs fs q && (decide (q ∈ ig) != hasMark st.markers q) && !fl q)
                  rest := by
              simp [List.filter_cons, hf]
            have hfil3 : List.filter (fun q =>
                existsFs fs q && (decide (q ∈ ig) != hasMark st.markers q) && fl q)
                  (p :: rest) =
                p :: List.filter (fun q =>
                  existsFs fs q && (decide (q ∈ ig) != hasMark st.markers q) && fl q)
                  rest := by
              simp [List.filter_cons, he, hbne, hf]
            rw [hstep, hfil1, hfil2, hfil3]
            obtain ⟨ihr, ihu, ihe⟩ := ih
              { st with errors := st.errors + 1, pe := st.pe + 1 } hNr
            refine ⟨by rw [ihr], by rw [ihu], ?_⟩
            rw [ihe, List.length_cons]
            show st.errors + 1 + (List.filter (fun q =>
                existsFs fs q && (decide (q ∈ ig) != hasMark st.markers q) && fl q)
                  rest).length =
              st.errors + ((List.filter (fun q =>
                existsFs fs q && (decide (q ∈ ig) != hasMark st.markers q) && fl q)
                  rest).length + 1)
            omega
          · have hf' : fl p = false := by simpa using hf
            have hstep : trackedStep fs ig fl st p =
                { st with markers := addMark st.markers p,
                          updated := st.updated + 1, ps := st.ps + 1 } := by
              unfold trackedStep
              simp [he, hig, hm', hf']
            have hfil1 : List.filter (fun q => !existsFs fs q) (p :: rest) =
                List.filter (fun q => !existsFs fs q) rest := by
              simp [List.filter_cons, he]
            have hfil2 : List.filter (fun q =>
                existsFs fs q && (decide (q ∈ ig) != hasMark st.markers q) && !fl q)
                  (p :: rest) =
                p :: List.filter (fun q =>
                  existsFs fs q && (decide (q ∈ ig) != hasMark st.markers q) && !fl q)
                  rest := by
              simp [List.filter_cons, he, hbne, hf']
            have hfil3 : List.filter (fun q =>
                existsFs fs q && (decide (q ∈ ig) != hasMark st.markers q) && fl q)
                  (p :: rest) =
                List.filter (fun q =>
                  existsFs fs q && (decide (q ∈ ig) != hasMark st.markers q) && fl q)
                  rest := by
              simp [List.filter_cons, hf']
            have hcg2 : rest.filter (fun q =>
                existsFs fs q && (decide (q ∈ ig) != hasMark (addMark st.markers p) q) && !fl q) =
                rest.filter (fun q =>
                  existsFs fs q && (decide (q ∈ ig) != hasMark st.markers q) && !fl q) := by
              apply List.filter_congr
              intro q hq
              rw [hasMark_addMark_ne st.markers p q (fun e => hp (e ▸ hq))]
            have hcg3 : rest.filter (fun q =>
                existsFs fs q && (decide (q ∈ ig) != hasMark (addMark st.markers p) q) && fl q) =
                rest.filter (fun q =>
                  existsFs fs q && (decide (q ∈ ig) != hasMark st.markers q) && fl q) := by
              apply List.filter_congr
              intro q hq
              rw [hasMark_addMark_ne st.markers p q (fun e => hp (e ▸ hq))]
            rw [hstep, hfil1, hfil2, hfil3]
            obtain ⟨ihr, ihu, ihe⟩ := ih
              { st with markers := addMark st.markers p,
                        updated := st.updated + 1, ps := st.ps + 1 } hNr
            refine ⟨by rw [ihr], ?_, ?_⟩
            · rw [ihu]
              show st.updated + 1 + (rest.filter (fun q =>
                  existsFs fs q && (decide (q ∈ ig) != hasMark (addMark st.markers p) q) && !fl q)).length = _
              rw [hcg2, List.length_cons]
              omega
            · rw [ihe]
              show st.errors + (rest.filter (fun q =>
                  existsFs fs q && (decide (q ∈ ig) != hasMark (addMark st.markers p) q) && fl q)).length = _
              rw [hcg3]
      · -- not git-ignored
        have hig' : decide (p ∈ ig) = false := by simpa using hig
        by_cases hm : hasMark st.markers p = true
        · -- marked but should not be: remove
          have hbne : (decide (p ∈ ig) != hasMark st.markers p) = true := by
            rw [hig', hm]
            rfl
          by_cases hf : fl p = true
          · have hstep : trackedStep fs ig fl st p =
                { st with errors := st.errors + 1, pe := st.pe + 1 } := by
              unfold trackedStep
              simp [he, hig', hm, hf]
            have hfil1 : List.filter (fun q => !existsFs fs q) (p :: rest) =
                List.filter (fun q => !existsFs fs q) rest := by
              simp [List.filter_cons, he]
            have hfil2 : List.filter (fun q =>
                existsFs fs q && (decide (q ∈ ig) != hasMark st.markers q) && !fl q)
                  (p :: rest) =
                List.filter (fun q =>
                  existsFs fs q && (decide (q ∈ ig) != hasMark st.markers q) && !fl q)
                  rest := by
              simp [List.filter_cons, hf]
            have hfil3 : List.filter (fun q =>
                existsFs fs q && (decide (q ∈ ig) != hasMark st.markers q) && fl q)
                  (p :: rest) =
                p :: List.filter (fun q =>
                  existsFs fs q && (decide (q ∈ ig) != hasMark st.markers q) && fl q)
                  rest := by
              simp [List.filter_cons, he, hbne, hf]
            rw [hstep, hfil1, hfil2, hfil3]
            obtain ⟨ihr, ihu, ihe⟩ := ih
              { st with errors := st.errors + 1, pe := st.pe + 1 } hNr
            refine ⟨by rw [ihr], by rw [ihu], ?_⟩
            rw [ihe, List.length_cons]
            show st.errors + 1 + (List.filter (fun q =>
                existsFs fs q && (decide (q ∈ ig) != hasMark st.markers q) && fl q)
                  rest).length =
              st.errors + ((List.filter (fun q =>
                existsFs fs q && (decide (q ∈ ig) != hasMark st.markers q) && fl q)
                  rest).length + 1)
            omega
          · have hf' : fl p = false := by simpa using hf
            have hstep : trackedStep fs ig fl st p =
                { st with markers := rmMark st.markers p,
                          updated := st.updated + 1, ps := st.ps + 1 } := by
              unfold trackedStep
              simp [he, hig', hm, hf']
            have hfil1 : List.filter (fun q => !existsFs fs q) (p :: rest) =
                List.filter (fun q => !existsFs fs q) rest := by
              simp [List.filter_cons, he]
            have hfil2 : List.filter (fun q =>
                existsFs fs q && (decide (q ∈ ig) != hasMark st.markers q) && !fl q)
                  (p :: rest) =
                p :: List.filter (fun q =>
                  existsFs fs q && (decide (q ∈ ig) != hasMark st.markers q) && !fl q)
                  rest := by
              simp [List.filter_cons, he, hbne, hf']
            have hfil3 : List.filter (fun q =>
                existsFs fs q && (decide (q ∈ ig) != hasMark st.markers q) && fl q)
                  (p :: rest) =
                List.filter (fun q =>
                  existsFs fs q && (decide (q ∈ ig) != hasMark st.markers q) && fl q)
                  rest := by
              simp [List.filter_cons, hf']
            have hcg2 : rest.filter (fun q =>
                existsFs fs q && (decide (q ∈ ig) != hasMark (rmMark st.markers p) q) && !fl q) =
                rest.filter (fun q =>
                  existsFs fs q && (decide (q ∈ ig) != hasMark st.markers q) && !fl q) := by
              apply List.filter_congr
              intro q hq
              rw [hasMark_rmMark_ne st.markers p q (fun e => hp (e ▸ hq))]
            have hcg3 : rest.filter (fun q =>
                existsFs fs q && (decide (q ∈ ig) != hasMark (rmMark st.markers p) q) && fl q) =
                rest.filter (fun q =>
                  existsFs fs q && (decide (q ∈ ig) != hasMark st.markers q) && fl q) := by
              apply List.filter_congr
              intro q hq
              rw [hasMark_rmMark_ne st.markers p q (fun e => hp (e ▸ hq))]
            rw [hstep, hfil1, hfil2, hfil3]
            obtain ⟨ihr, ihu, ihe⟩ := ih
              { st with markers := rmMark st.markers p,
                        updated := st.updated + 1, ps := st.ps + 1 } hNr
            refine ⟨by rw [ihr], ?_, ?_⟩
            · rw [ihu]
              show st.updated + 1 + (rest.filter (fun q =>
                  existsFs fs q && (decide (q ∈ ig) != hasMark (rmMark st.markers p) q) && !fl q)).length = _
              rw [hcg2, List.length_cons]
              omega
            · rw [ihe]
              show st.errors + (rest.filter (fun q =>
                  existsFs fs q && (decide (q ∈ ig) != hasMark (rmMark st.markers p) q) && fl q)).length = _
              rw [hcg3]
        · -- neither ignored nor marked: no action
          have hm' : hasMark st.markers p = false := by simpa using hm
          have hbne : (decide (p ∈ ig) != hasMark st.markers p) = false := by
            rw [hig', hm']
            rfl
          have hstep : trackedStep fs ig fl st p = st := by
            unfold trackedStep
            simp [he, hig', hm']
          have hfil1 : List.filter (fun q => !existsFs fs q) (p :: rest) =
              List.filter (fun q => !existsFs fs q) rest := by
            simp [List.filter_cons, he]
          have hfil2 : List.filter (fun q =>
              existsFs fs q && (decide (q ∈ ig) != hasMark st.markers q) && !fl q)
                (p :: rest) =
              List.filter (fun q =>
                existsFs fs q && (decide (q ∈ ig) != hasMark st.markers q) && !fl q)
                rest := by
            simp [List.filter_cons, hbne]
          have hfil3 : List.filter (fun q =>
              existsFs fs q && (decide (q ∈ ig) != hasMark st.markers q) && fl q)
                (p :: rest) =
              List.filter (fun q =>
                existsFs fs q && (decide (q ∈ ig) != hasMark st.markers q) && fl q)
                rest := by
            simp [List.filter_cons, hbne]
          rw [hstep, hfil1, hfil2, hfil3]
          exact ih st hNr
    · -- path vanished: drop from tracking
      have he' : existsFs fs p = false := by simpa using he
      have hstep : trackedStep fs ig fl st p =
          { st with tracked := st.tracked.filter (fun q => q ≠ p),
                    removed := st.removed + 1 } := by
        unfold trackedStep
        simp [he']
      have hfil1 : List.filter (fun q => !existsFs fs q) (p :: rest) =
          p :: List.filter (fun q => !existsFs fs q) rest := by
        simp [List.filter_cons, he']
      have hfil2 : List.filter (fun q =>
          existsFs fs q && (decide (q ∈ ig) != hasMark st.markers q) && !fl q)
            (p :: rest) =
          List.filter (fun q =>
            existsFs fs q && (decide (q ∈ ig) != hasMark st.markers q) && !fl q)
            rest := by
        simp [List.filter_cons, he']
      have hfil3 : List.filter (fun q =>
          existsFs fs q && (decide (q ∈ ig) != hasMark st.markers q) && fl q)
            (p :: rest) =
          List.filter (fun q =>
            existsFs fs q && (decide (q ∈ ig) != hasMark st.markers q) && fl q)
            rest := by
        simp [List.filter_cons, he']
      rw [hstep, hfil1, hfil2, hfil3]
      obtain ⟨ihr, ihu, ihe⟩ := ih
        { st with tracked := st.tracked.filter (fun q => q ≠ p),
                  removed := st.removed + 1 } hNr
      refine ⟨?_, by rw [ihu], by rw [ihe]⟩
      rw [ihr, List.length_cons]
      show st.removed + 1 + (List.filter (fun q => !existsFs fs q) rest).length =
        st.removed + ((List.filter (fun q => !existsFs fs q) rest).length + 1)
      omega

/-- Marker status respects marker-list membership equivalence. -/
theorem hasMark_congr (M1 M2 : List Path) (h : ∀ q, q ∈ M1 ↔ q ∈ M2) (x : Path) :
    hasMark M1 x = hasMark M2 x :=
  decide_eq_decide.mpr (h x)

/-- The marked-files walk only depends on marker membership. -/
theorem find_marked_files_congr (fs : FS) (M1 M2 : List Path)
    (h : ∀ q, q ∈ M1 ↔ q ∈ M2) :
    find_marked_files fs M1 = find_marked_files fs M2 := by
  unfold find_marked_files
  have h1 : fs.files.filter
      (fun f => !f.dropLast.any (fun c => c == ".git") && hasMark M1 f) =
      fs.files.filter
        (fun f => !f.dropLast.any (fun c => c == ".git") && hasMark M2 f) :=
    List.filter_congr (fun x _ => by rw [hasMark_congr M1 M2 h x])
  have h2 : fs.dirs.filter (fun d => !hasGitComp d && hasMark M1 d) =
      fs.dirs.filter (fun d => !hasGitComp d && hasMark M2 d) :=
    List.filter_congr (fun x _ => by rw [hasMark_congr M1 M2 h x])
  rw [h1, h2]

/-- Membership in the closed-form marker list after the marking loop. -/
theorem markedAfterAdds_mem (fl : Path → Bool) (M ig : List Path) (q : Path) :
    q ∈ markedAfterAdds fl M ig ↔ q ∈ M ∨ (q ∈ ig ∧ fl q = false) := by
  unfold markedAfterAdds
  simp only [List.mem_append, List.mem_filter, Bool.and_eq_true, Bool.not_eq_true',
    hasMark, decide_eq_false_iff_not]
  constructor
  · rintro (hq | ⟨hq, -, hf⟩)
    · exact Or.inl hq
    · exact Or.inr ⟨hq, hf⟩
  · rintro (hq | ⟨hq, hf⟩)
    · exact Or.inl hq
    · by_cases hqm : q ∈ M
      · exact Or.inl hqm
      · exact Or.inr ⟨hq, hqm, hf⟩

/-- C7: a reconciliation pass never aborts on a per-path attribute-store
failure: in GitIgnore and TrackedFiles modes the pass iterates over the full
desired and actual-marked sets and reports exact (added, removed, errors)
totals, with every failing path counted in the error total and every
succeeding path in the add/remove/update totals. -/
theorem C7_pass_completes (pats : List String) (fs : FS) (M tracked : List Path)
    (fl : Path → Bool) (hN : (fs.files ++ fs.dirs).Nodup) (hT : tracked.Nodup) :
    ((perform_gitignore_scan pats fs M fl).added =
        ((get_git_ignored_files_in_path pats fs).filter
          (fun p => !hasMark M p && !fl p)).length ∧
      (perform_gitignore_scan pats fs M fl).removed =
        ((find_marked_files fs
            (markedAfterAdds fl M (get_git_ignored_files_in_path pats fs))).filter
          (fun m => !decide (m ∈ get_git_ignored_files_in_path pats fs) && !fl m)).length ∧
      (perform_gitignore_scan pats fs M fl).errors =
        ((get_git_ignored_files_in_path pats fs).filter
          (fun p => !hasMark M p && fl p)).length +
        ((find_marked_files fs
            (markedAfterAdds fl M (get_git_ignored_files_in_path pats fs))).filter
          (fun m => !decide (m ∈ get_git_ignored_files_in_path pats fs) && fl m)).length) ∧
    ((perform_tracked_files_scan pats fs tracked M fl).removed =
        (tracked.filter (fun p => !existsFs fs p)).length ∧
      (perform_tracked_files_scan pats fs tracked M fl).updated =
        (tracked.filter (fun p => existsFs fs p &&
          (decide (p ∈ get_git_ignored_files_in_path pats fs) != hasMark M p) &&
          !fl p)).length ∧
      (perform_tracked_files_scan pats fs tracked M fl).errors =
        (tracked.filter (fun p => existsFs fs p &&
          (decide (p ∈ get_git_ignored_files_in_path pats fs) != hasMark M p) &&
          fl p)).length) := by
  set ig := get_git_ignored_files_in_path pats fs with hig
  have hFilesN : fs.files.Nodup := hN.of_append_left
  have hIgN : ig.Nodup := by
    rw [hig]
    unfold get_git_ignored_files_in_path
    exact (hFilesN.filter _).filter _
  have hst1N := markFold_added fl ig (ScanSt.init M) hIgN
  have hst1E := markFold_errors fl ig (ScanSt.init M) hIgN
  have hst1R := markFold_removed fl ig (ScanSt.init M)
  set st1 := ig.foldl (markStep fl) (ScanSt.init M) with hst1
  have hmem1 : ∀ q, q ∈ st1.markers ↔ q ∈ markedAfterAdds fl M ig := by
    intro q
    rw [hst1, markFold_markers_mem, markedAfterAdds_mem]
    show q ∈ (ScanSt.init M).markers ∨ _ ↔ _
    rfl
  have hmarkedEq : find_marked_files fs st1.markers =
      find_marked_files fs (markedAfterAdds fl M ig) :=
    find_marked_files_congr fs _ _ hmem1
  have hMarkedN : (find_marked_files fs st1.markers).Nodup := by
    unfold find_marked_files
    exact (List.Sublist.append (List.filter_sublist _) (List.filter_sublist _)).nodup hN
  have hMarkedAll : ∀ m ∈ find_marked_files fs st1.markers,
      hasMark st1.markers m = true := by
    intro m hm
    rw [find_marked_files_mem] at hm
    simpa [hasMark] using hm.2
  have hsw := sweepFold_counts fl (fun m => decide (m ∈ ig)) (fun _ => false)
    (find_marked_files fs st1.markers) st1 hMarkedN hMarkedAll
  have hswA := sweepFold_added fl (fun m => decide (m ∈ ig)) (fun _ => false)
    (find_marked_files fs st1.markers) st1
  have hgdef : perform_gitignore_scan pats fs M fl =
      (find_marked_files fs st1.markers).foldl
        (sweepStep fl (fun m => decide (m ∈ ig)) (fun _ => false)) st1 := rfl
  have htr := trackedFold_counts fs ig fl tracked ⟨tracked, M, 0, 0, 0, 0, 0⟩ hT
  have htdef : perform_tracked_files_scan pats fs tracked M fl =
      tracked.foldl (trackedStep fs ig fl) ⟨tracked, M, 0, 0, 0, 0, 0⟩ := rfl
  refine ⟨⟨?_, ?_, ?_⟩, ?_, ?_, ?_⟩
  · rw [hgdef, hswA, hst1N]
    simp only [ScanSt.init, Nat.zero_add]
  · rw [hgdef, hsw.1, hst1R, hmarkedEq]
    simp only [ScanSt.init, Bool.not_false, Bool.and_true, Nat.zero_add]
  · rw [hgdef, hsw.2, hst1E, hmarkedEq]
    simp only [ScanSt.init, Bool.not_false, Bool.and_true, Nat.zero_add]
  · rw [htdef, htr.1]
    simp only [Nat.zero_add]
  · rw [htdef, htr.2.1]
    simp only [Nat.zero_add]
  · rw [htdef, htr.2.2]
    simp only [Nat.zero_add]

/-- Witness for C7: with a store that fails on every path, both scans still
complete and report the failure in their error totals. -/
theorem C7_pass_completes_witness :
    (perform_gitignore_scan ["*.log"] fsTracked [] (fun _ => true)).errors = 1 ∧
    (perform_tracked_files_scan ["*.log"] fsTracked [["a.log"]] [] (fun _ => true)).errors = 1 := by
  have h := C7_pass_completes ["*.log"] fsTracked [] [["a.log"]] (fun _ => true)
    (by decide) (by decide)
  constructor
  · rw [h.1.2.2]
    decide
  · rw [h.2.2.2]
    decide


end DbxIgnore
